import Mathlib

/-!
Shallow embedding of the MCTS engine of `src/mcts_modified.py` (the complete
variant of the two bots in the repository; `src/mcts_vanilla.py` leaves
`backpropagate` and `get_best_action` as `pass` stubs).  The tree of
`MCTSNode` objects linked by `parent` references is embedded as an arena:
a `List MCTSNode` indexed by position, the root at index 0, a node's
`parent`/`child_nodes` fields holding indices into that list.  Mutation of
the Python object graph becomes functional update of the list.  Python's
`random.choice(seq)` is modelled by an explicit stream `r : Nat -> Nat` of
random draws together with a running position `k`; `choice` at position `k`
picks `seq[r k % len seq]` and advances to `k+1`.  Float arithmetic is
modelled exactly: the UCB score lives in an arbitrary linear ordered field
`K` with the library functions `math.sqrt` / `math.log` passed in as
parameters `sqrtK logK : K -> K`; instantiating `K := Real`,
`sqrtK := Real.sqrt`, `logK := Real.log` gives the idealised real-number
semantics of the Python source.
-/

namespace MCTS

attribute [local semireducible] Rat.add Rat.mul Rat.sub Rat.inv

/-- Actions of the concrete game (`p2_t3` ultimate tic-tac-toe): quadruples
`(R, C, r, c)` of board and square coordinates.  The rollout heuristic of
`mcts_modified.py` reads components `move[0]` and `move[1]`. -/
abbrev Act : Type := ℕ × ℕ × ℕ × ℕ

/-- Modelled from the spec: the external game-rules collaborator (spec section 6,
`p2_t3.Board`, which is not under `src/`).  An opaque state type `S` with the
five operations the core calls, plus `owned_boxes` used by the rollout
heuristic, and the contract facts the spec states about them: a non-terminal
state has a nonempty legal-action list (section 7), `points_values` is available
exactly at terminal states (section 6), the legal-action list is a set (no
duplicates), and the game tree is finite, witnessed by a rank function that
strictly decreases along every legal move from a non-terminal state
(sections 5 and 7: rollouts are bounded by the game's own termination). -/
structure Game (S : Type) where
  current_player : S → ℕ
  legal_actions : S → List Act
  next_state : S → Act → S
  is_ended : S → Bool
  points_values : S → Option (ℕ → ℤ)
  owned_boxes : S → ℕ × ℕ → ℕ
  legal_nonempty : ∀ s, is_ended s = false → legal_actions s ≠ []
  legal_nodup : ∀ s, (legal_actions s).Nodup
  points_terminal : ∀ s, is_ended s = true → (points_values s).isSome
  rank : S → ℕ
  rank_lt : ∀ s a, is_ended s = false → a ∈ legal_actions s →
    rank (next_state s a) < rank s

/-- Modelled from the spec: the Tree Node data model (spec section 3; the
`MCTSNode` class lives in `mcts_node.py`, which is not under `src/`).
`parent` and `child_nodes` hold arena indices; `child_nodes` is the
insertion-ordered dict from action to child.  Statistics start at 0 and are
mutated only by backpropagation (spec section 3, lifecycle). -/
structure MCTSNode where
  parent : Option ℕ
  parent_action : Option Act
  child_nodes : List (Act × ℕ)
  untried_actions : List Act
  wins : ℕ
  visits : ℕ
deriving Repr, DecidableEq, Inhabited

/-- Trees are arenas of nodes; the root sits at index 0. -/
abbrev Tree : Type := List MCTSNode

/-- Reading a node of the arena (Python attribute access on an object
reference; out-of-range indices never occur along reachable code paths). -/
def getN (t : Tree) (i : ℕ) : MCTSNode := t.getD i default

/-- Writing a node of the arena (mutation of a Python object). -/
def setN (t : Tree) (i : ℕ) (n : MCTSNode) : Tree := t.set i n

/-- Python `dict.update({a : b})`: replace in place if the key is present,
else append at the end (dicts preserve insertion order). -/
def dictUpdate : List (Act × ℕ) → Act → ℕ → List (Act × ℕ)
  | [], a, b => [(a, b)]
  | x :: xs, a, b => if x.1 = a then (a, b) :: xs else x :: dictUpdate xs a b

/-- Python `random.choice(seq)` at stream position `k`: the element of `seq`
at index `r k % seq.length` (never called on an empty sequence). -/
def choice (r : ℕ → ℕ) (k : ℕ) (l : List Act) : Act :=
  l.getD (r k % l.length) default

/-- Ancestor chain of node `i`: the indices visited by the
`while node: ... node = node.parent` walk of `backpropagate`, fuelled (the
fuel only exists to make the Python loop structurally recursive; on
well-formed trees a fuel of `t.length` is never exhausted). -/
def chain (t : Tree) : ℕ → Option ℕ → List ℕ
  | _, none => []
  | 0, some _ => []
  | fuel + 1, some i => i :: chain t fuel (getN t i).parent

/-- Embedding of `mcts_modified.backpropagate` (lines 247-258): walk from the
given node up through the `parent` references, adding 1 to `visits` and
`1 if won else 0` to `wins` at every node on the way. -/
def backpropagate (t : Tree) : ℕ → Option ℕ → Bool → Tree
  | _, none, _ => t
  | 0, some _, _ => t
  | fuel + 1, some i, won =>
    let n := getN t i
    backpropagate
      (setN t i { n with visits := n.visits + 1,
                         wins := n.wins + (if won then 1 else 0) })
      fuel n.parent won

/-- Statistics update applied by one backpropagation step at one node:
`node.visits += 1; node.wins += 1 if won else 0`. -/
def bump (won : Bool) (n : MCTSNode) : MCTSNode :=
  { n with visits := n.visits + 1, wins := n.wins + (if won then 1 else 0) }

/-- Constant `explore_faction = 2.` of `mcts_modified.py` line 8. -/
def explore_faction {K : Type} [LinearOrderedField K] : K := 2

/-- Embedding of `mcts_modified.ucb` (lines 261-277): `value` starts at 0,
`total_visits` is the parent's visit count, and only a visited node gets
`winrate + explore_faction * sqrt(log(total_visits) / visits)`, the win rate
flipped when `is_opponent`.  A node passed to `ucb` always has a parent in
the source (only children are scored); the `getD 0` default models the
attribute access `node.parent.visits`. -/
def ucb {K : Type} [LinearOrderedField K] (sqrtK logK : K → K)
    (t : Tree) (i : ℕ) (is_opponent : Bool) : K :=
  let node := getN t i
  let total_visits := (getN t (node.parent.getD 0)).visits
  if node.visits ≠ 0 then
    (if is_opponent then 1 - (node.wins : K) / (node.visits : K)
     else (node.wins : K) / (node.visits : K))
      + explore_faction * sqrtK (logK (total_visits : K) / (node.visits : K))
  else 0

/-- Python `max` over a nonempty sequence of scored items: keep the current
best and replace it only on a strictly greater score, so the first maximum
in iteration order wins ties. -/
def firstMax {K : Type} [LinearOrder K] : ℕ × K → List (ℕ × K) → ℕ × K
  | best, [] => best
  | best, x :: xs => firstMax (if x.2 > best.2 then x else best) xs

/-- Loop body and loop of `mcts_modified.traverse_nodes` (lines 29-38): while
the current node has no untried action, score every child with `ucb` (the
`children` dict, in insertion order), stop if there are none, else descend
into the argmax child and advance the state by that child's `parent_action`.
The `is_opponent` flag is a loop-constant parameter here because the source
computes it once, before the loop (line 27). -/
def traverseAux {K : Type} [LinearOrderedField K] (sqrtK logK : K → K)
    {S : Type} (g : Game S) (t : Tree) :
    ℕ → ℕ → S → Bool → ℕ × S
  | 0, i, state, _ => (i, state)
  | fuel + 1, i, state, is_opponent =>
    if (getN t i).untried_actions = [] then
      match (getN t i).child_nodes.map
          (fun p => (p.2, ucb sqrtK logK t p.2 is_opponent)) with
      | [] => (i, state)
      | c :: cs =>
        let best := firstMax c cs
        traverseAux sqrtK logK g t fuel best.1
          (g.next_state state ((getN t best.1).parent_action.getD default))
          is_opponent
    else (i, state)

/-- Embedding of `mcts_modified.traverse_nodes` (lines 10-38): the
`is_opponent` flag is computed once from the state at the start of the
traversal (line 27), then the descent loop runs with fuel `t.length + 1`,
which on well-formed trees is never exhausted (child indices strictly
increase along a descent). -/
def traverse_nodes {K : Type} [LinearOrderedField K] (sqrtK logK : K → K)
    {S : Type} (g : Game S) (t : Tree) (i : ℕ) (state : S)
    (bot_identity : ℕ) : ℕ × S :=
  let is_opponent : Bool := !(g.current_player state == bot_identity)
  traverseAux sqrtK logK g t (t.length + 1) i state is_opponent

/-- Embedding of `mcts_modified.expand_leaf` (lines 41-62): if the node has
untried actions, `choice` one, remove it from `untried_actions`, advance the
state, create the child node holding the advanced state's legal actions, add
it to `child_nodes`, and return it; otherwise return node and state
unchanged.  Result: `((tree, node index, state), next stream position)`. -/
def expand_leaf {S : Type} (g : Game S) (r : ℕ → ℕ)
    (t : Tree) (i : ℕ) (state : S) (k : ℕ) : (Tree × ℕ × S) × ℕ :=
  let node := getN t i
  if node.untried_actions ≠ [] then
    let action := choice r k node.untried_actions
    let t1 := setN t i { node with
      untried_actions := node.untried_actions.erase action }
    let state1 := g.next_state state action
    let child : MCTSNode :=
      { parent := some i, parent_action := some action, child_nodes := [],
        untried_actions := g.legal_actions state1, wins := 0, visits := 0 }
    let newIdx := t1.length
    let t2 := t1 ++ [child]
    let t3 := setN t2 i { getN t2 i with
      child_nodes := dictUpdate (getN t2 i).child_nodes action newIdx }
    ((t3, newIdx, state1), k + 1)
  else ((t, i, state), k)

/-- Opponent computation of `mcts_modified.rollout` (lines 162-164):
`opponent_bot = 1; if identity_of_bot == 1: opponent_bot = 2`. -/
def opponent_bot (identity_of_bot : ℕ) : ℕ :=
  if identity_of_bot = 1 then 2 else 1

/-- Per-candidate scoring of `mcts_modified.rollout` (lines 177-190): the
two sequential `if` blocks on `owned_boxes[(move_x, move_y)]`, adding to the
running `priority_point1` (note `move_x and move_y == 1` is Python
truthiness: `move_x != 0 and move_y == 1`). -/
def priorityDelta {S : Type} (g : Game S) (idb opb : ℕ)
    (test_state : S) (move : Act) : ℤ :=
  let move_x := move.1
  let move_y := move.2.1
  let owner := g.owned_boxes test_state (move_x, move_y)
  (if owner = idb then
    (5 : ℤ) + (if move_x ≠ 0 ∧ move_y = 1 then 10 else 0)
      + (if (move_x = 0 ∨ move_x = 2) ∧ (move_y = 0 ∨ move_y = 2)
         then 3 else 0)
   else 0)
  + (if owner = opb then
      (-5 : ℤ) + (if move_x ≠ 0 ∧ move_y = 1 then -10 else 0)
        + (if (move_x = 0 ∨ move_x = 2) ∧ (move_y = 0 ∨ move_y = 2)
           then -3 else 0)
     else 0)

/-- Running state of the candidate loop of `mcts_modified.rollout`
(lines 167-195): the accumulated `priority_point1`, the threshold
`keep_point`, the `best_check` flag, the current `best_move`, the last
sampled `rollout_move`, and the random stream position. -/
structure PlyState where
  pp : ℤ
  keep : ℤ
  best_check : Bool
  best_move : Act
  rollout_move : Act
  k : ℕ
deriving Repr, DecidableEq, Inhabited

/-- One iteration of `for i in range(50)` in `mcts_modified.rollout`
(lines 170-195): sample a legal move, score it into the accumulated
`priority_point1`, and replace `best_move` exactly when
`keep_point > priority_point1`. -/
def plyStep {S : Type} (g : Game S) (idb opb : ℕ) (rollout_state : S)
    (r : ℕ → ℕ) (st : PlyState) : PlyState :=
  let move := choice r st.k (g.legal_actions rollout_state)
  let test_state := g.next_state rollout_state move
  let pp := st.pp + priorityDelta g idb opb test_state move
  if st.keep > pp then
    { pp := pp, keep := pp, best_check := true, best_move := move,
      rollout_move := move, k := st.k + 1 }
  else
    { st with pp := pp, rollout_move := move, k := st.k + 1 }

/-- First `m` iterations of the candidate loop, starting from the per-ply
initial state `priority_point1 = 0`, `keep_point = 0`, `best_check = False`
(lines 167-169; `best_move` and `rollout_move` are uninitialised in Python
until first written, and are never read before being written). -/
def plyRun {S : Type} (g : Game S) (idb opb : ℕ) (rollout_state : S)
    (r : ℕ → ℕ) (k : ℕ) (m : ℕ) : PlyState :=
  (List.range m).foldl (fun st _ => plyStep g idb opb rollout_state r st)
    { pp := 0, keep := 0, best_check := false, best_move := default,
      rollout_move := default, k := k }

/-- Move actually played for one ply of `mcts_modified.rollout`: the result
of the 50-candidate loop, with the fallback `if best_check == False:
best_move = rollout_move` (lines 196-197), paired with the advanced random
stream position. -/
def plyBest {S : Type} (g : Game S) (idb opb : ℕ) (rollout_state : S)
    (r : ℕ → ℕ) (k : ℕ) : Act × ℕ :=
  let st := plyRun g idb opb rollout_state r k 50
  ((if st.best_check then st.best_move else st.rollout_move), st.k)

/-- Outer `while not board.is_ended(rollout_state)` loop of
`mcts_modified.rollout` (lines 166-199), fuelled; the fuel only makes the
loop structural, and `rank + 1` fuel is enough by the game contract. -/
def rolloutAux {S : Type} (g : Game S) (idb : ℕ) (r : ℕ → ℕ) :
    ℕ → S → ℕ → S × ℕ
  | 0, state, k => (state, k)
  | fuel + 1, state, k =>
    if g.is_ended state then (state, k)
    else
      let bm := plyBest g idb (opponent_bot idb) state r k
      rolloutAux g idb r fuel (g.next_state state bm.1) bm.2

/-- Embedding of `mcts_modified.rollout` (lines 161-199): play heuristic
moves until the state is terminal, returning the terminal state and the
advanced stream position. -/
def rollout {S : Type} (g : Game S) (state : S) (idb : ℕ)
    (r : ℕ → ℕ) (k : ℕ) : S × ℕ :=
  rolloutAux g idb r (g.rank state + 1) state k

/-- Embedding of `mcts_modified.is_win` (lines 301-305): asserts that the
state is terminal (`points_values` available), then checks whether the
outcome for `identity_of_bot` equals 1.  The assertion failure is an
`Except.error`. -/
def is_win {S : Type} (g : Game S) (state : S) (identity_of_bot : ℕ) :
    Except String Bool :=
  match g.points_values state with
  | none => .error "is_win was called on a non-terminal state"
  | some outcome => .ok (outcome identity_of_bot = 1 : Bool)

/-- Embedding of `mcts_modified.get_best_action` (lines 279-298): iterate
over the root's children, considering only visited ones, keeping the
`parent_action` of any child whose exact win rate is at least the running
`winrate` (which starts at 0).  Python's `action` variable being possibly
unbound at `return action` is the `Except.error` case; the `else` branch
returns the root's own `parent_action`. -/
def get_best_action (t : Tree) (rootIdx : ℕ) : Except String (Option Act) :=
  let root := getN t rootIdx
  if root.child_nodes ≠ [] then
    let res := root.child_nodes.foldl
      (fun (acc : ℚ × Option (Option Act)) p =>
        let child := getN t p.2
        if child.visits ≠ 0 then
          if (child.wins : ℚ) / (child.visits : ℚ) ≥ acc.1 then
            ((child.wins : ℚ) / (child.visits : ℚ), some child.parent_action)
          else acc
        else acc)
      ((0 : ℚ), none)
    match res.2 with
    | none => .error "UnboundLocalError: local variable referenced before assignment"
    | some a => .ok a
  else .ok root.parent_action

/-- Iteration budget `num_nodes = 100` of `mcts_modified.py` line 7. -/
def num_nodes : ℕ := 100

/-- One iteration of the search loop in `mcts_modified.think`
(lines 320-328): reset `state`/`node` to the root, traverse, expand,
roll out, evaluate `is_win` on the terminal state, and backpropagate from
the node the expansion returned. -/
def searchStep {K : Type} [LinearOrderedField K] (sqrtK logK : K → K)
    {S : Type} (g : Game S) (bot_identity : ℕ) (current_state : S)
    (r : ℕ → ℕ) (t : Tree) (k : ℕ) : Except String (Tree × ℕ) :=
  let ts := traverse_nodes sqrtK logK g t 0 current_state bot_identity
  let es := expand_leaf g r t ts.1 ts.2 k
  let rs := rollout g es.1.2.2 bot_identity r es.2
  match is_win g rs.1 bot_identity with
  | .error e => .error e
  | .ok won => .ok (backpropagate es.1.1 es.1.1.length (some es.1.2.1) won, rs.2)

/-- Search loop of `mcts_modified.think`: `for _ in range(n)`, threading the
tree and the random stream position, propagating any error. -/
def searchLoop {K : Type} [LinearOrderedField K] (sqrtK logK : K → K)
    {S : Type} (g : Game S) (bot_identity : ℕ) (current_state : S)
    (r : ℕ → ℕ) : ℕ → Tree → ℕ → Except String (Tree × ℕ)
  | 0, t, k => .ok (t, k)
  | n + 1, t, k =>
    match searchStep sqrtK logK g bot_identity current_state r t k with
    | .error e => .error e
    | .ok tk => searchLoop sqrtK logK g bot_identity current_state r n tk.1 tk.2

/-- Root node constructed by `mcts_modified.think` line 318:
`MCTSNode(parent=None, parent_action=None, action_list=legal_actions)`. -/
def rootNode {S : Type} (g : Game S) (current_state : S) : MCTSNode :=
  { parent := none, parent_action := none, child_nodes := [],
    untried_actions := g.legal_actions current_state, wins := 0, visits := 0 }

/-- Embedding of `mcts_modified.think` (lines 307-336): build the root from
the current state, run `num_nodes` search iterations, and extract the best
action from the root. -/
def think {K : Type} [LinearOrderedField K] (sqrtK logK : K → K)
    {S : Type} (g : Game S) (current_state : S) (r : ℕ → ℕ) :
    Except String (Option Act) :=
  let bot_identity := g.current_player current_state
  match searchLoop sqrtK logK g bot_identity current_state r num_nodes
      [rootNode g current_state] 0 with
  | .error e => .error e
  | .ok tk => get_best_action tk.1 0

/-- Well-formedness of one arena node (spec section 3, invariants): the root
(index 0) is the only node without a parent, a parent's index precedes its
child's, and each `child_nodes` entry points at an in-range node whose
`parent` / `parent_action` fields point back. -/
@[reducible] def WFnode (t : Tree) (i : ℕ) : Prop :=
  ((getN t i).parent = none → i = 0)
  ∧ (∀ p ∈ (getN t i).parent, p < i)
  ∧ ∀ c ∈ (getN t i).child_nodes,
      i < c.2 ∧ c.2 < t.length ∧ (getN t c.2).parent = some i
        ∧ (getN t c.2).parent_action = some c.1

/-- Well-formed arena: nonempty, every node well-formed. -/
@[reducible] def WF (t : Tree) : Prop := 0 < t.length ∧ ∀ i, i < t.length → WFnode t i

/-- Parent indices decrease: the inductive handle on parent walks (out of
range nodes read as `default`, whose `parent` is `none`). -/
def Pdec (t : Tree) : Prop := ∀ j, ∀ p ∈ (getN t j).parent, p < j

/-- Every non-root node has been visited at least once (each expanded child
is immediately backpropagated through in the same iteration). -/
@[reducible] def VisitsPos (t : Tree) : Prop :=
  ∀ i, i < t.length → 0 < i → 1 ≤ (getN t i).visits

/-- Decidability of the per-child well-formedness conditions (stated as its
own instance to keep instance search shallow). -/
instance instDecChild (t : Tree) (i : ℕ) (c : Act × ℕ) :
    Decidable (i < c.2 ∧ c.2 < t.length ∧ (getN t c.2).parent = some i
        ∧ (getN t c.2).parent_action = some c.1) := by infer_instance

/-- Decidability of `WFnode`. -/
instance instDecWFnode (t : Tree) (i : ℕ) : Decidable (WFnode t i) := by
  unfold WFnode; infer_instance

/-- Decidability of `WF`. -/
instance instDecWF (t : Tree) : Decidable (WF t) := by
  unfold WF; infer_instance

/-- Decidability of `VisitsPos`. -/
instance instDecVisitsPos (t : Tree) : Decidable (VisitsPos t) := by
  unfold VisitsPos; infer_instance

/-- State associated with node `i`, reconstructed by replaying
`parent_action`s down from the root state `s0` (spec section 3: the state is
not stored on the node), fuelled like every other parent walk. -/
def stateAt {S : Type} (g : Game S) (s0 : S) (t : Tree) : ℕ → ℕ → S
  | 0, _ => s0
  | fuel + 1, i =>
    match (getN t i).parent with
    | none => s0
    | some p =>
      g.next_state (stateAt g s0 t fuel p) ((getN t i).parent_action.getD default)

/-- Expanded actions of a node: the keys of its `child_nodes` dict. -/
def keysN (t : Tree) (i : ℕ) : List Act := (getN t i).child_nodes.map Prod.fst

/-- Partition invariant (spec section 8): at every node, the expanded keys
and the untried actions are disjoint and together are exactly the legal
actions of the state the node represents; `untried_actions` stays
duplicate-free. -/
def Partition {S : Type} (g : Game S) (s0 : S) (t : Tree) : Prop :=
  ∀ i, i < t.length →
    (getN t i).untried_actions.Nodup
    ∧ (∀ a ∈ keysN t i, a ∉ (getN t i).untried_actions)
    ∧ ∀ a, (a ∈ keysN t i ∨ a ∈ (getN t i).untried_actions)
        ↔ a ∈ g.legal_actions (stateAt g s0 t t.length i)

/-- Modelled from the spec: the per-ply selection rule claimed for the
traversal ("the is_opponent flag ... is determined per ply"): identical to
`traverseAux` except that the flag fed to `ucb` is recomputed from the
current state at every level of the descent. -/
def traverseClaimAux {K : Type} [LinearOrderedField K] (sqrtK logK : K → K)
    {S : Type} (g : Game S) (t : Tree) (bot_identity : ℕ) :
    ℕ → ℕ → S → ℕ × S
  | 0, i, state => (i, state)
  | fuel + 1, i, state =>
    if (getN t i).untried_actions = [] then
      match (getN t i).child_nodes.map
          (fun p => (p.2, ucb sqrtK logK t p.2
            (!(g.current_player state == bot_identity)))) with
      | [] => (i, state)
      | c :: cs =>
        let best := firstMax c cs
        traverseClaimAux sqrtK logK g t bot_identity fuel best.1
          (g.next_state state ((getN t best.1).parent_action.getD default))
    else (i, state)

/-- Modelled from the spec: per-ply-flag traversal entry point. -/
def traverseClaim {K : Type} [LinearOrderedField K] (sqrtK logK : K → K)
    {S : Type} (g : Game S) (t : Tree) (i : ℕ) (state : S)
    (bot_identity : ℕ) : ℕ × S :=
  traverseClaimAux sqrtK logK g t bot_identity (t.length + 1) i state

/-- Modelled from the spec: the action-extraction rule exactly as the claim
states it — among the root's children take the child of highest win rate
"treating zero-visit children as rate 0", a later child with rate greater
than or equal to the current best overwriting the earlier candidate, with
the root's `parent_action` as the no-children fallback. -/
def getBestActionClaim (t : Tree) (rootIdx : ℕ) : Option (Option Act) :=
  let root := getN t rootIdx
  if root.child_nodes ≠ [] then
    (root.child_nodes.foldl
      (fun (acc : ℚ × Option (Option Act)) p =>
        let child := getN t p.2
        let rate : ℚ := if child.visits = 0 then 0
          else (child.wins : ℚ) / (child.visits : ℚ)
        if rate ≥ acc.1 then (rate, some child.parent_action) else acc)
      ((0 : ℚ), none)).2
  else some root.parent_action

/-- Concrete action labels for the hand-built test positions below. -/
def A1 : Act := (1, 0, 0, 0)

/-- Second concrete action label. -/
def A2 : Act := (2, 0, 0, 0)

/-- Third concrete action label. -/
def A3 : Act := (3, 0, 0, 0)

/-- Fourth concrete action label. -/
def A4 : Act := (4, 0, 0, 0)

/-- Concrete game whose every state is terminal with an empty legal-action
list: the \"root state already terminal\" scenario of the spec. -/
def G1 : Game ℕ where
  current_player := fun _ => 1
  legal_actions := fun _ => []
  next_state := fun s _ => s
  is_ended := fun _ => true
  points_values := fun _ => some fun p => if p = 1 then 1 else -1
  owned_boxes := fun _ _ => 0
  legal_nonempty := by intro s h; simp at h
  legal_nodup := by intro s; simp
  points_terminal := by intro s _; rfl
  rank := fun _ => 0
  rank_lt := by intro s a h; simp at h

/-- Concrete game for exercising the traversal: from state 0 (player 1 to
move) action `A1` leads to state 1 where player 2 is to move, whose moves
`A3`/`A4` lead to states 3/4.  Traversal reads only `current_player` and
`next_state`, so all states are marked ended with no legal moves. -/
def G9 : Game ℕ where
  current_player := fun s => if s = 1 then 2 else 1
  legal_actions := fun _ => []
  next_state := fun s a =>
    if s = 0 ∧ a = A1 then 1 else if s = 0 ∧ a = A2 then 2
    else if s = 1 ∧ a = A3 then 3 else if s = 1 ∧ a = A4 then 4 else 5
  is_ended := fun _ => true
  points_values := fun _ => some fun p => if p = 1 then 1 else -1
  owned_boxes := fun _ _ => 0
  legal_nonempty := by intro s h; simp at h
  legal_nodup := by intro s; simp
  points_terminal := by intro s _; rfl
  rank := fun _ => 0
  rank_lt := by intro s a h; simp at h

/-- Variant of `G9` in which the player to move never changes; it agrees
with `G9` at state 0, where a traversal from the root starts. -/
def G9' : Game ℕ := { G9 with current_player := fun _ => 1 }

/-- Concrete game with one non-terminal state 0 (two legal moves), every
move ending the game; used to run the heuristic rollout. -/
def G10 : Game ℕ where
  current_player := fun _ => 1
  legal_actions := fun s => if s = 0 then [A1, A2] else []
  next_state := fun _ _ => 1
  is_ended := fun s => decide (s ≠ 0)
  points_values := fun _ => some fun p => if p = 1 then 1 else -1
  owned_boxes := fun _ _ => 0
  legal_nonempty := by
    intro s h
    simp only [decide_eq_false_iff_not, not_not] at h
    simp [h, A1, A2]
  legal_nodup := by
    intro s
    dsimp only
    split
    · simp [A1, A2]
    · simp
  points_terminal := by intro s _; rfl
  rank := fun s => if s = 0 then 1 else 0
  rank_lt := by
    intro s a h _
    simp only [decide_eq_false_iff_not, not_not] at h
    simp [h]

/-- Two-level search tree over `G9`: the root's children 1/2 carry win rates
1 and 0, node 1's children 3/4 likewise carry win rates 1 and 0.  All
interior nodes are fully expanded, nodes 3 and 4 are childless dead ends. -/
def T9 : Tree :=
  [ { parent := none, parent_action := none, child_nodes := [(A1, 1), (A2, 2)],
      untried_actions := [], wins := 1, visits := 2 },
    { parent := some 0, parent_action := some A1,
      child_nodes := [(A3, 3), (A4, 4)],
      untried_actions := [], wins := 1, visits := 1 },
    { parent := some 0, parent_action := some A2, child_nodes := [],
      untried_actions := [], wins := 0, visits := 1 },
    { parent := some 1, parent_action := some A3, child_nodes := [],
      untried_actions := [], wins := 1, visits := 1 },
    { parent := some 1, parent_action := some A4, child_nodes := [],
      untried_actions := [], wins := 0, visits := 1 } ]

/-- One-node tree whose root still has two untried actions. -/
def T5 : Tree :=
  [ { parent := none, parent_action := none, child_nodes := [],
      untried_actions := [A1, A2], wins := 0, visits := 0 } ]

/-- Root with two children: child 1 visited once without a win, child 2
never visited — the position separating \"skip zero-visit children\" from
\"treat zero-visit children as rate 0\". -/
def T6 : Tree :=
  [ { parent := none, parent_action := none, child_nodes := [(A1, 1), (A2, 2)],
      untried_actions := [], wins := 0, visits := 2 },
    { parent := some 0, parent_action := some A1, child_nodes := [],
      untried_actions := [], wins := 0, visits := 1 },
    { parent := some 0, parent_action := some A2, child_nodes := [],
      untried_actions := [], wins := 0, visits := 0 } ]

/-- Root visited twice with a visited child (index 1) and an unvisited
child (index 2), for evaluating the UCB formula at both branches. -/
def T3w : Tree :=
  [ { parent := none, parent_action := none, child_nodes := [(A1, 1), (A2, 2)],
      untried_actions := [], wins := 1, visits := 2 },
    { parent := some 0, parent_action := some A1, child_nodes := [],
      untried_actions := [], wins := 1, visits := 1 },
    { parent := some 0, parent_action := some A2, child_nodes := [],
      untried_actions := [], wins := 0, visits := 0 } ]

/-- Last maximum of a scored list: scanning from the right, keep the current
best and replace it only when the element to the left scores strictly
higher, so the rightmost maximum wins ties; `none` exactly on the empty
list. -/
def lastMax (rate : Act × ℕ → ℚ) : List (Act × ℕ) → Option (Act × ℕ)
  | [] => none
  | x :: xs =>
    match lastMax rate xs with
    | none => some x
    | some b => some (if rate x > rate b then x else b)

/-- Amended action-extraction rule (what `get_best_action` actually
implements): zero-visit children are skipped outright (never selectable);
among the visited children the one selected is the last, in insertion
order, attaining the maximum win rate (the `>=` comparison makes later
equal-rate children overwrite earlier ones); if the root has children but
none is visited, the Python `action` variable is never assigned and the
function fails; if the root has no children at all, the root's own
`parent_action` is returned. -/
def getBestActionAmended (t : Tree) (rootIdx : ℕ) : Except String (Option Act) :=
  let root := getN t rootIdx
  if root.child_nodes = [] then .ok root.parent_action
  else
    match lastMax (fun p => ((getN t p.2).wins : ℚ) / ((getN t p.2).visits : ℚ))
        (root.child_nodes.filter (fun p => decide ((getN t p.2).visits ≠ 0))) with
    | none => .error "UnboundLocalError: local variable referenced before assignment"
    | some sel => .ok (getN t sel.2).parent_action

/-- One-node tree: a root whose single simulated game was won (the result
of one search iteration on the all-terminal game `G1`). -/
def T1r : Tree :=
  [ { parent := none, parent_action := none, child_nodes := [],
      untried_actions := [], wins := 1, visits := 1 } ]

namespace MctsVanilla

/-- Embedding of `mcts_vanilla.backpropagate` (lines 111-120): the body is
the single statement `pass`, so the tree is returned unchanged whatever the
arguments.  (The vanilla bot is the unfinished skeleton: its `think`,
lines 156-182, cannot run at all — it calls `expand_leaf` on the tuple
returned by `traverse_nodes`, an arity error on every invocation, and its
`traverse_nodes` takes `max` of an empty sequence at a childless node.) -/
def backpropagate (t : Tree) (_node : Option ℕ) (_won : Bool) : Tree := t

/-- Embedding of `mcts_vanilla.get_best_action` (lines 139-148): the body is
`pass`, so the Python function returns `None` for every tree. -/
def get_best_action (_t : Tree) (_rootIdx : ℕ) : Option Act := none

end MctsVanilla

/-! Arena access lemmas. -/

theorem length_setN (t : Tree) (i : ℕ) (n : MCTSNode) :
    (setN t i n).length = t.length := List.length_set t i n

theorem getN_setN_self {t : Tree} {i : ℕ} (n : MCTSNode) (h : i < t.length) :
    getN (setN t i n) i = n := by
  simp [getN, setN, List.getD_eq_getElem?_getD, List.getElem?_set_self h]

theorem getN_setN_ne {t : Tree} {i j : ℕ} (n : MCTSNode) (h : i ≠ j) :
    getN (setN t i n) j = getN t j := by
  simp [getN, setN, List.getD_eq_getElem?_getD, List.getElem?_set_ne h]

theorem getN_append_lt {t : Tree} (c : MCTSNode) {j : ℕ} (h : j < t.length) :
    getN (t ++ [c]) j = getN t j := by
  simp [getN, List.getD_eq_getElem?_getD, List.getElem?_append, h]

theorem getN_append_len (t : Tree) (c : MCTSNode) :
    getN (t ++ [c]) t.length = c := by
  simp [getN, List.getD_eq_getElem?_getD, List.getElem?_concat_length]

theorem getN_append_eq_len {t : Tree} (c : MCTSNode) {j : ℕ}
    (h : j = t.length) : getN (t ++ [c]) j = c := by
  rw [h]; exact getN_append_len t c

theorem getN_oob {t : Tree} {i : ℕ} (h : t.length ≤ i) : getN t i = default := by
  simp [getN, List.getD_eq_getElem?_getD, List.getElem?_eq_none h]

theorem Pdec_of_WF {t : Tree} (hwf : WF t) : Pdec t := by
  intro j p hp
  by_cases hj : j < t.length
  · exact (hwf.2 j hj).2.1 p hp
  · rw [getN_oob (Nat.le_of_not_lt hj)] at hp
    cases hp

/-! Ancestor-chain lemmas. -/

theorem chain_congr {t t' : Tree}
    (hp : ∀ j, (getN t' j).parent = (getN t j).parent) :
    ∀ fuel o, chain t' fuel o = chain t fuel o := by
  intro fuel
  induction fuel with
  | zero => intro o; cases o <;> rfl
  | succ fuel ih =>
    intro o
    cases o with
    | none => rfl
    | some i => simp only [chain, hp, ih]

theorem chain_none {t : Tree} : ∀ fuel, chain t fuel none = [] := by
  intro fuel; cases fuel <;> rfl

theorem chain_le {t : Tree} (hd : Pdec t) :
    ∀ fuel i j, j ∈ chain t fuel (some i) → j ≤ i := by
  intro fuel
  induction fuel with
  | zero => intro i j h; cases h
  | succ fuel ih =>
    intro i j h
    rw [chain] at h
    rcases List.mem_cons.mp h with h | h
    · exact h.le
    · cases hp : (getN t i).parent with
      | none => rw [hp, chain_none] at h; cases h
      | some p =>
        rw [hp] at h
        exact (ih p j h).trans (hd i p (by rw [hp]; rfl)).le

theorem chain_head {t : Tree} (fuel i : ℕ) (h : 0 < fuel) :
    (chain t fuel (some i)).head? = some i := by
  cases fuel with
  | zero => omega
  | succ fuel => rw [chain, List.head?_cons]

theorem chain_getLast_zero {t : Tree} (hwf : WF t) :
    ∀ fuel i, i < t.length → i < fuel →
      (chain t fuel (some i)).getLast? = some 0 := by
  intro fuel
  induction fuel with
  | zero => intro i _ h; omega
  | succ fuel ih =>
    intro i hi hf
    rw [chain]
    cases hp : (getN t i).parent with
    | none =>
      have : i = 0 := (hwf.2 i hi).1 hp
      simp [this, chain]
    | some p =>
      have hpi : p < i := (hwf.2 i hi).2.1 p (by rw [hp]; rfl)
      have hrec := ih p (hpi.trans hi) (by omega)
      cases hfuel : fuel with
      | zero => omega
      | succ fuel2 =>
        rw [hfuel] at hrec
        rw [chain]
        rw [chain] at hrec
        rw [List.getLast?_cons_cons]
        exact hrec

/-! Backpropagation walk characterisation. -/

theorem backpropagate_none (t : Tree) (won : Bool) :
    ∀ fuel, backpropagate t fuel none won = t := by
  intro fuel; cases fuel <;> rfl

theorem backprop_walk (won : Bool) :
    ∀ fuel (t : Tree) (i : ℕ), Pdec t → i < t.length → i < fuel →
      (backpropagate t fuel (some i) won).length = t.length
      ∧ (∀ j, j ∈ chain t fuel (some i) →
          getN (backpropagate t fuel (some i) won) j = bump won (getN t j))
      ∧ ∀ j, j ∉ chain t fuel (some i) →
          getN (backpropagate t fuel (some i) won) j = getN t j := by
  intro fuel
  induction fuel with
  | zero => intro t i _ _ h; omega
  | succ fuel ih =>
    intro t i hd hi hf
    have hstep : backpropagate t (fuel + 1) (some i) won
        = backpropagate (setN t i (bump won (getN t i))) fuel
            (getN t i).parent won := rfl
    have hchain : chain t (fuel + 1) (some i)
        = i :: chain t fuel (getN t i).parent := rfl
    have hpar : ∀ j, (getN (setN t i (bump won (getN t i))) j).parent
        = (getN t j).parent := by
      intro j
      by_cases hj : j = i
      · subst hj; rw [getN_setN_self _ hi]; rfl
      · rw [getN_setN_ne _ (fun hh => hj hh.symm)]
    have ht1len : (setN t i (bump won (getN t i))).length = t.length :=
      length_setN ..
    have hget1i : getN (setN t i (bump won (getN t i))) i
        = bump won (getN t i) := getN_setN_self _ hi
    have hget1ne : ∀ j, j ≠ i →
        getN (setN t i (bump won (getN t i))) j = getN t j := by
      intro j hj
      exact getN_setN_ne _ (fun hh => hj hh.symm)
    cases hp : (getN t i).parent with
    | none =>
      rw [hp] at hstep
      rw [hstep, backpropagate_none]
      refine ⟨ht1len, ?_, ?_⟩
      · intro j hj
        rw [hchain, hp, chain_none] at hj
        simp only [List.mem_singleton] at hj
        subst hj
        exact hget1i
      · intro j hj
        rw [hchain, hp, chain_none] at hj
        simp only [List.mem_singleton] at hj
        exact hget1ne j hj
    | some p =>
      have hpi : p < i := hd i p (by rw [hp]; rfl)
      have hd1 : Pdec (setN t i (bump won (getN t i))) := by
        intro j q hq; rw [hpar j] at hq; exact hd j q hq
      have hrec := ih (setN t i (bump won (getN t i))) p hd1 (by omega) (by omega)
      rw [hp] at hstep
      have hch1 : chain (setN t i (bump won (getN t i))) fuel (some p)
          = chain t fuel (some p) := chain_congr hpar fuel (some p)
      have hnotmem : i ∉ chain t fuel (some p) := by
        intro hmem
        exact absurd (chain_le hd fuel p i hmem) (by omega)
      refine ⟨by rw [hstep, hrec.1, ht1len], ?_, ?_⟩
      · intro j hj
        rw [hchain, hp] at hj
        rcases List.mem_cons.mp hj with hji | hjc
        · subst hji
          rw [hstep, hrec.2.2 j (by rw [hch1]; exact hnotmem), hget1i]
        · have hji : j ≠ i := by
            intro hh; subst hh; exact hnotmem hjc
          rw [hstep, hrec.2.1 j (by rw [hch1]; exact hjc), hget1ne j hji]
      · intro j hj
        rw [hchain, hp] at hj
        have hji : j ≠ i := fun hh => hj (by rw [hh]; exact List.mem_cons_self ..)
        have hjc : j ∉ chain t fuel (some p) := fun hc =>
          hj (List.mem_cons.mpr (Or.inr hc))
        rw [hstep, hrec.2.2 j (by rw [hch1]; exact hjc), hget1ne j hji]

/-- C2: for every node and every boolean `won`, `backpropagate` increments
`visits` by exactly 1 on every node of the parent chain from the given node
(head of the chain) up to and including the root (index 0, last of the
chain), increments `wins` by exactly 1 on each of those same nodes if and
only if `won` is true, and changes nothing else in the tree: the length is
unchanged (no node created or deleted) and every node off the chain keeps
all its fields. -/
theorem c2_backpropagate_updates_chain_only (t : Tree) (i : ℕ) (won : Bool)
    (hwf : WF t) (hi : i < t.length) :
    (backpropagate t t.length (some i) won).length = t.length
    ∧ (chain t t.length (some i)).head? = some i
    ∧ (chain t t.length (some i)).getLast? = some 0
    ∧ (∀ j ∈ chain t t.length (some i),
        getN (backpropagate t t.length (some i) won) j
          = { getN t j with
              visits := (getN t j).visits + 1,
              wins := (getN t j).wins + if won then 1 else 0 })
    ∧ ∀ j ∉ chain t t.length (some i),
        getN (backpropagate t t.length (some i) won) j = getN t j := by
  obtain ⟨h1, h2, h3⟩ :=
    backprop_walk won t.length t i (Pdec_of_WF hwf) hi hi
  exact ⟨h1, chain_head _ _ hwf.1, chain_getLast_zero hwf _ i hi hi,
    fun j hj => h2 j hj, fun j hj => h3 j hj⟩

/-- Witness for C2 at a concrete tree: node 3 of `T9` has ancestor chain
`[3, 1, 0]`, and backpropagating a win there bumps the root exactly once. -/
theorem c2_backpropagate_updates_chain_only_witness :
    WF T9 ∧ 3 < T9.length
    ∧ chain T9 T9.length (some 3) = [3, 1, 0]
    ∧ getN (backpropagate T9 T9.length (some 3) true) 0
        = { getN T9 0 with
            visits := (getN T9 0).visits + 1,
            wins := (getN T9 0).wins + if true then 1 else 0 }
    ∧ getN (backpropagate T9 T9.length (some 3) true) 2 = getN T9 2 :=
  ⟨by decide, by decide, by decide,
   (c2_backpropagate_updates_chain_only T9 3 true (by decide)
     (by decide)).2.2.2.1 0 (by decide),
   (c2_backpropagate_updates_chain_only T9 3 true (by decide)
     (by decide)).2.2.2.2 2 (by decide)⟩

/-- C3: with the real-number reading of float arithmetic, `ucb` returns 0
for an unvisited node (no infinite priority for unvisited nodes), and
otherwise exploitation plus exploration: win rate `wins/visits`, flipped to
`1 - wins/visits` when `is_opponent`, plus
`C * sqrt(ln(parent.visits)/visits)` with the exploration constant `C`
fixed at 2. -/
theorem c3_ucb_formula (t : Tree) (i : ℕ) (is_opponent : Bool) :
    ((getN t i).visits = 0 → ucb Real.sqrt Real.log t i is_opponent = 0)
    ∧ ∀ p, (getN t i).parent = some p → (getN t i).visits ≠ 0 →
        ucb Real.sqrt Real.log t i is_opponent
          = (if is_opponent
             then 1 - ((getN t i).wins : ℝ) / ((getN t i).visits : ℝ)
             else ((getN t i).wins : ℝ) / ((getN t i).visits : ℝ))
            + 2 * Real.sqrt (Real.log (((getN t p).visits : ℝ))
                / ((getN t i).visits : ℝ)) := by
  constructor
  · intro h; simp [ucb, h]
  · intro p hp h
    simp [ucb, h, hp, explore_faction]

/-- Witness for C3 on `T3w`: the zero-visit child scores 0, and the visited
child scores `1/1 + 2*sqrt(ln 2 / 1)`. -/
theorem c3_ucb_formula_witness :
    (getN T3w 2).visits = 0 ∧ ucb Real.sqrt Real.log T3w 2 false = 0
    ∧ ucb Real.sqrt Real.log T3w 1 false
        = (1 : ℝ) / 1 + 2 * Real.sqrt (Real.log 2 / 1) := by
  refine ⟨by decide, (c3_ucb_formula T3w 2 false).1 (by decide), ?_⟩
  have h := (c3_ucb_formula T3w 1 false).2 0 (by decide) (by decide)
  have e1 : (getN T3w 1).wins = 1 := rfl
  have e2 : (getN T3w 1).visits = 1 := rfl
  have e3 : (getN T3w 0).visits = 2 := rfl
  rw [h, e1, e2, e3]
  norm_num

/-- Python-`max` characterisation: `firstMax x xs` is an element of
`x :: xs`, no element scores strictly higher, and every element strictly
before its (first) position scores strictly lower — the first maximum in
iteration order wins ties. -/
theorem firstMax_spec {K : Type} [LinearOrder K] :
    ∀ (xs : List (ℕ × K)) (x : ℕ × K),
      firstMax x xs ∈ x :: xs
      ∧ (∀ y ∈ x :: xs, y.2 ≤ (firstMax x xs).2)
      ∧ ∃ m : ℕ, (x :: xs)[m]? = some (firstMax x xs)
          ∧ ∀ q : ℕ, q < m → ∀ y : ℕ × K, (x :: xs)[q]? = some y →
              y.2 < (firstMax x xs).2 := by
  intro xs
  induction xs with
  | nil =>
    intro x
    refine ⟨List.mem_singleton.mpr rfl, ?_, 0, rfl,
      fun q hq => absurd hq (Nat.not_lt_zero q)⟩
    intro y hy
    rw [List.mem_singleton] at hy
    rw [hy, firstMax]
  | cons y ys ih =>
    intro x
    simp only [firstMax]
    by_cases hxy : y.2 > x.2
    · rw [if_pos hxy]
      obtain ⟨h1, h2, m, hm, hlt⟩ := ih y
      have hybest : y.2 ≤ (firstMax y ys).2 := h2 y (List.mem_cons_self ..)
      refine ⟨List.mem_cons_of_mem x h1, ?_, m + 1, ?_, ?_⟩
      · intro z hz
        rcases List.mem_cons.mp hz with hz | hz
        · rw [hz]; exact le_of_lt (lt_of_lt_of_le hxy hybest)
        · exact h2 z hz
      · rw [List.getElem?_cons_succ]; exact hm
      · intro q hq z hz
        cases q with
        | zero =>
          rw [List.getElem?_cons_zero] at hz
          cases hz
          exact lt_of_lt_of_le hxy hybest
        | succ q =>
          rw [List.getElem?_cons_succ] at hz
          exact hlt q (by omega) z hz
    · rw [if_neg hxy]
      obtain ⟨h1, h2, m, hm, hlt⟩ := ih x
      have hyx : y.2 ≤ x.2 := le_of_not_lt hxy
      have hxbest : x.2 ≤ (firstMax x ys).2 := h2 x (List.mem_cons_self ..)
      refine ⟨?_, ?_, ?_⟩
      · rcases List.mem_cons.mp h1 with h | h
        · rw [h]; exact List.mem_cons_self ..
        · exact List.mem_cons_of_mem x (List.mem_cons_of_mem y h)
      · intro z hz
        rcases List.mem_cons.mp hz with hz | hz
        · rw [hz]; exact hxbest
        rcases List.mem_cons.mp hz with hz | hz
        · rw [hz]; exact le_trans hyx hxbest
        · exact h2 z (List.mem_cons_of_mem x hz)
      · cases m with
        | zero =>
          rw [List.getElem?_cons_zero] at hm
          refine ⟨0, ?_, fun q hq => absurd hq (Nat.not_lt_zero q)⟩
          rw [List.getElem?_cons_zero, hm]
        | succ m =>
          rw [List.getElem?_cons_succ] at hm
          have hxlt : x.2 < (firstMax x ys).2 :=
            hlt 0 (by omega) x List.getElem?_cons_zero
          refine ⟨m + 2, ?_, ?_⟩
          · rw [List.getElem?_cons_succ, List.getElem?_cons_succ]; exact hm
          · intro q hq z hz
            match q with
            | 0 =>
              rw [List.getElem?_cons_zero] at hz
              cases hz
              exact hxlt
            | 1 =>
              rw [List.getElem?_cons_succ, List.getElem?_cons_zero] at hz
              cases hz
              exact lt_of_le_of_lt hyx hxlt
            | q + 2 =>
              rw [List.getElem?_cons_succ, List.getElem?_cons_succ] at hz
              exact hlt (q + 1) (by omega) z
                (by rw [List.getElem?_cons_succ]; exact hz)

/-- Scored entries come from `child_nodes`: any element of the `children`
score list is the score of some child entry. -/
theorem scores_mem_children {K : Type} [LinearOrderedField K]
    (sqrtK logK : K → K) (t : Tree) (flag : Bool) (i : ℕ)
    {c : ℕ × K} {cs : List (ℕ × K)}
    (hs : (getN t i).child_nodes.map
        (fun p => (p.2, ucb sqrtK logK t p.2 flag)) = c :: cs)
    {b : ℕ × K} (hb : b ∈ c :: cs) :
    ∃ e ∈ (getN t i).child_nodes, b.1 = e.2 := by
  rw [← hs] at hb
  obtain ⟨e, he, hbe⟩ := List.mem_map.mp hb
  exact ⟨e, he, by rw [← hbe]⟩

/-- Fuel irrelevance for the traversal loop: any fuel of at least
`t.length - i` gives the same result, because each descent step moves to a
strictly larger in-range index on a well-formed tree. -/
theorem traverseAux_fuel {K : Type} [LinearOrderedField K]
    (sqrtK logK : K → K) {S : Type} (g : Game S) {t : Tree} (hwf : WF t) :
    ∀ f1 f2 i state flag, i < t.length →
      t.length - i ≤ f1 → t.length - i ≤ f2 →
      traverseAux sqrtK logK g t f1 i state flag
        = traverseAux sqrtK logK g t f2 i state flag := by
  intro f1
  induction f1 with
  | zero => intro f2 i state flag hi h1 h2; omega
  | succ f1 ih =>
    intro f2 i state flag hi h1 h2
    cases f2 with
    | zero => omega
    | succ f2 =>
      simp only [traverseAux]
      by_cases hu : (getN t i).untried_actions = []
      · rw [if_pos hu, if_pos hu]
        cases hs : (getN t i).child_nodes.map
            (fun p => (p.2, ucb sqrtK logK t p.2 flag)) with
        | nil => rfl
        | cons c cs =>
          obtain ⟨e, he, hbe⟩ := scores_mem_children sqrtK logK t flag i hs
            (firstMax_spec cs c).1
          obtain ⟨hie, helen, -, -⟩ := (hwf.2 i hi).2.2 e he
          have hb1 : i < (firstMax c cs).1 := by rw [hbe]; exact hie
          have hb2 : (firstMax c cs).1 < t.length := by rw [hbe]; exact helen
          exact ih f2 (firstMax c cs).1 _ flag hb2 (by omega) (by omega)
      · rw [if_neg hu, if_neg hu]

theorem stateAt_fuel_stable {S : Type} (g : Game S) (s0 : S) {t : Tree}
    (hd : Pdec t) :
    ∀ f1 f2 i, i < f1 → i < f2 →
      stateAt g s0 t f1 i = stateAt g s0 t f2 i := by
  intro f1
  induction f1 with
  | zero => intro f2 i h1 _; omega
  | succ f1 ih =>
    intro f2 i h1 h2
    cases f2 with
    | zero => omega
    | succ f2 =>
      rw [stateAt, stateAt]
      cases hp : (getN t i).parent with
      | none => rfl
      | some p =>
        have hpi : p < i := hd i p (by rw [hp]; rfl)
        dsimp only
        rw [ih f2 p (by omega) (by omega)]

theorem traverseAux_stateAt {K : Type} [LinearOrderedField K]
    (sqrtK logK : K → K) {S : Type} (g : Game S) (s0 : S) {t : Tree}
    (hwf : WF t) :
    ∀ fuel i state flag, i < t.length →
      state = stateAt g s0 t t.length i →
      (traverseAux sqrtK logK g t fuel i state flag).2
        = stateAt g s0 t t.length
            ((traverseAux sqrtK logK g t fuel i state flag).1) := by
  intro fuel
  induction fuel with
  | zero => intro i state flag hi hst; exact hst
  | succ fuel ih =>
    intro i state flag hi hst
    simp only [traverseAux]
    by_cases hu : (getN t i).untried_actions = []
    · rw [if_pos hu]
      cases hs : (getN t i).child_nodes.map
          (fun p => (p.2, ucb sqrtK logK t p.2 flag)) with
      | nil => exact hst
      | cons c cs =>
        obtain ⟨e, he, hbe⟩ := scores_mem_children sqrtK logK t flag i hs
          (firstMax_spec cs c).1
        obtain ⟨hie, helen, hback, hpa⟩ := (hwf.2 i hi).2.2 e he
        have hj : (firstMax c cs).1 = e.2 := hbe
        refine ih (firstMax c cs).1 _ flag (by rw [hj]; exact helen) ?_
        have hlen1 : 1 ≤ t.length := hwf.1
        obtain ⟨len1, hlen⟩ : ∃ m, t.length = m + 1 :=
          ⟨t.length - 1, by omega⟩
        have hilen1 : i < len1 := by omega
        have hst2 : stateAt g s0 t len1 i = state := by
          rw [hst]
          exact stateAt_fuel_stable g s0 (Pdec_of_WF hwf) len1 t.length i
            hilen1 (by omega)
        conv_rhs => rw [hlen, stateAt]
        rw [hj, hback]
        dsimp only
        rw [hst2, hpa]
    · rw [if_neg hu]
      exact hst

/-- C4: the traversal loop returns immediately at a node with an untried
action, returns immediately at a childless fully-tried node, and otherwise
descends into the child of maximum UCB score — the first maximum in
insertion order on ties (characterised exactly as Python's `max`) — while
advancing the state by that child's `parent_action`, with the loop-constant
`is_opponent` flag computed from the traversal's starting state. -/
theorem c4_traverse_nodes_spec {K : Type} [LinearOrderedField K]
    (sqrtK logK : K → K) {S : Type} (g : Game S) (t : Tree) (i : ℕ)
    (state : S) (bot_identity : ℕ) (hwf : WF t) (hi : i < t.length) :
    ((getN t i).untried_actions ≠ [] →
      traverse_nodes sqrtK logK g t i state bot_identity = (i, state))
    ∧ ((getN t i).untried_actions = [] → (getN t i).child_nodes = [] →
      traverse_nodes sqrtK logK g t i state bot_identity = (i, state))
    ∧ (∀ (c : ℕ × K) (cs : List (ℕ × K)),
        (getN t i).untried_actions = [] →
        (getN t i).child_nodes.map
            (fun p => (p.2, ucb sqrtK logK t p.2
              (!(g.current_player state == bot_identity)))) = c :: cs →
        (firstMax c cs ∈ c :: cs
         ∧ (∀ y ∈ c :: cs, y.2 ≤ (firstMax c cs).2)
         ∧ ∃ m : ℕ, (c :: cs)[m]? = some (firstMax c cs)
             ∧ ∀ q : ℕ, q < m → ∀ y : ℕ × K, (c :: cs)[q]? = some y →
                 y.2 < (firstMax c cs).2)
        ∧ traverse_nodes sqrtK logK g t i state bot_identity
          = traverseAux sqrtK logK g t (t.length + 1) (firstMax c cs).1
              (g.next_state state
                ((getN t (firstMax c cs).1).parent_action.getD default))
              (!(g.current_player state == bot_identity)))
    ∧ ∀ s0 : S, state = stateAt g s0 t t.length i →
        (traverse_nodes sqrtK logK g t i state bot_identity).2
          = stateAt g s0 t t.length
              ((traverse_nodes sqrtK logK g t i state bot_identity).1) := by
  refine ⟨?_, ?_, ?_, ?_⟩
  · intro hu
    rw [traverse_nodes]
    simp only [traverseAux]
    rw [if_neg hu]
  · intro hu hc
    rw [traverse_nodes]
    simp only [traverseAux]
    rw [if_pos hu, hc]
    rfl
  · intro c cs hu hs
    refine ⟨firstMax_spec cs c, ?_⟩
    rw [traverse_nodes]
    conv_lhs => simp only [traverseAux]
    rw [if_pos hu, hs]
    obtain ⟨e, he, hbe⟩ := scores_mem_children sqrtK logK t _ i hs
      (firstMax_spec cs c).1
    obtain ⟨hie, helen, -, -⟩ := (hwf.2 i hi).2.2 e he
    have hb1 : i < (firstMax c cs).1 := by rw [hbe]; exact hie
    have hb2 : (firstMax c cs).1 < t.length := by rw [hbe]; exact helen
    exact traverseAux_fuel sqrtK logK g hwf t.length (t.length + 1)
      (firstMax c cs).1 _ _ hb2 (by omega) (by omega)
  · intro s0 hs
    rw [traverse_nodes]
    exact traverseAux_stateAt sqrtK logK g s0 hwf (t.length + 1) i state _
      hi hs

/-- Witness for C4 on `T9` (rational field, identity stand-ins for
`sqrt`/`log`): at the fully-expanded root the traversal descends into the
argmax child `(1, 5)` of the concrete score list `[(1, 5), (2, 4)]`. -/
theorem c4_traverse_nodes_spec_witness :
    WF T9 ∧ 0 < T9.length
    ∧ traverse_nodes (K := ℚ) id id G9 T9 0 0 1
      = traverseAux (K := ℚ) id id G9 T9 (T9.length + 1)
          (firstMax ((1 : ℕ), (5 : ℚ)) [((2 : ℕ), (4 : ℚ))]).1
          (G9.next_state 0
            ((getN T9 (firstMax ((1 : ℕ), (5 : ℚ))
                [((2 : ℕ), (4 : ℚ))]).1).parent_action.getD default))
          (!(G9.current_player 0 == 1)) :=
  ⟨by decide, by decide,
   ((c4_traverse_nodes_spec (K := ℚ) id id G9 T9 0 0 1 (by decide)
       (by decide)).2.2.1
     ((1 : ℕ), (5 : ℚ)) [((2 : ℕ), (4 : ℚ))] (by decide) (by decide)).2⟩

/-- Game-independence of the traversal loop body: `traverseAux` consults the
game only through `next_state`. -/
theorem traverseAux_next_congr {K : Type} [LinearOrderedField K]
    (sqrtK logK : K → K) {S : Type} (g g' : Game S)
    (hns : g.next_state = g'.next_state) (t : Tree) :
    ∀ fuel i state flag,
      traverseAux sqrtK logK g t fuel i state flag
        = traverseAux sqrtK logK g' t fuel i state flag := by
  intro fuel
  induction fuel with
  | zero => intro i state flag; rfl
  | succ fuel ih =>
    intro i state flag
    simp only [traverseAux]
    by_cases hu : (getN t i).untried_actions = []
    · rw [if_pos hu, if_pos hu]
      cases hs : (getN t i).child_nodes.map
          (fun p => (p.2, ucb sqrtK logK t p.2 flag)) with
      | nil => rfl
      | cons c cs =>
        show traverseAux sqrtK logK g t fuel (firstMax c cs).1
            (g.next_state state _) flag
          = traverseAux sqrtK logK g' t fuel (firstMax c cs).1
            (g'.next_state state _) flag
        rw [hns]
        exact ih ..
    · rw [if_neg hu, if_neg hu]

/-- C9 counterexample: on `T9` over `G9` (players alternate below the root)
the engine's traversal keeps the `is_opponent` flag computed at the start —
it descends to node 3 — while the claimed per-ply recomputation would flip
the flag one ply down and descend to node 4 instead.  The sibling scores
compared at each ply share the same exploration term (equal visit counts
under one parent), so the outcome is the same for every choice of
`sqrt`/`log` stand-ins, here the identity over `ℚ`. -/
theorem c9_counterexample_per_ply_flag :
    traverse_nodes (K := ℚ) id id G9 T9 0 0 1 = (3, 3)
    ∧ traverseClaim (K := ℚ) id id G9 T9 0 0 1 = (4, 4)
    ∧ ((3, 3) : ℕ × ℕ) ≠ (4, 4) :=
  ⟨by decide, by decide, by decide⟩

/-- C9 amended: the `is_opponent` flag is computed exactly once, from the
state at the start of the traversal (source line 27), and reused unchanged
at every ply of the descent; consequently the traversal depends on the
game's `current_player` only through its value at the starting state — two
games agreeing on `next_state` and on the starting state's player traverse
identically, regardless of whose turn it is further down. -/
theorem c9_amended_flag_fixed_once {K : Type} [LinearOrderedField K]
    (sqrtK logK : K → K) {S : Type} (g g' : Game S) (t : Tree) (i : ℕ)
    (state : S) (bot_identity : ℕ)
    (hns : g.next_state = g'.next_state)
    (hcp : g.current_player state = g'.current_player state) :
    traverse_nodes sqrtK logK g t i state bot_identity
      = traverse_nodes sqrtK logK g' t i state bot_identity := by
  rw [traverse_nodes, traverse_nodes, hcp]
  exact traverseAux_next_congr sqrtK logK g g' hns t ..

/-- Witness for the amended C9: `G9'` flattens `current_player` everywhere
below the root, yet the traversal result is unchanged. -/
theorem c9_amended_flag_fixed_once_witness :
    G9.next_state = G9'.next_state
    ∧ G9.current_player 0 = G9'.current_player 0
    ∧ traverse_nodes (K := ℚ) id id G9 T9 0 0 1
      = traverse_nodes (K := ℚ) id id G9' T9 0 0 1 :=
  ⟨rfl, rfl, c9_amended_flag_fixed_once id id G9 G9' T9 0 0 1 rfl rfl⟩

/-- Python `random.choice` returns an element of its (nonempty) argument. -/
theorem choice_mem (r : ℕ → ℕ) (k : ℕ) {l : List Act} (hl : l ≠ []) :
    choice r k l ∈ l := by
  have hlen : 0 < l.length := List.length_pos.mpr hl
  have hmod : r k % l.length < l.length := Nat.mod_lt _ hlen
  rw [choice, List.getD_eq_getElem?_getD, List.getElem?_eq_getElem hmod]
  exact List.getElem_mem ..

/-- Updating a dict at a fresh key appends the binding at the end. -/
theorem dictUpdate_fresh {l : List (Act × ℕ)} {a : Act} (b : ℕ)
    (ha : a ∉ l.map Prod.fst) : dictUpdate l a b = l ++ [(a, b)] := by
  induction l with
  | nil => rfl
  | cons x xs ih =>
    rw [dictUpdate]
    rw [List.map_cons, List.mem_cons] at ha
    push_neg at ha
    rw [if_neg (fun hh => ha.1 hh.symm), ih ha.2, List.cons_append]

/-- The updated binding is present after a dict update. -/
theorem dictUpdate_mem (l : List (Act × ℕ)) (a : Act) (b : ℕ) :
    (a, b) ∈ dictUpdate l a b := by
  induction l with
  | nil => exact List.mem_singleton.mpr rfl
  | cons x xs ih =>
    rw [dictUpdate]
    by_cases hx : x.1 = a
    · rw [if_pos hx]; exact List.mem_cons_self ..
    · rw [if_neg hx]; exact List.mem_cons_of_mem x ih

/-- Keys after a dict update: exactly the old keys plus the updated key. -/
theorem dictUpdate_keys (l : List (Act × ℕ)) (a : Act) (b : ℕ) :
    ∀ x, x ∈ (dictUpdate l a b).map Prod.fst ↔
      x = a ∨ x ∈ l.map Prod.fst := by
  induction l with
  | nil =>
    intro x
    simp [dictUpdate]
  | cons y ys ih =>
    intro x
    rw [dictUpdate]
    by_cases hy : y.1 = a
    · rw [if_pos hy]
      simp only [List.map_cons, List.mem_cons, ih x, hy]
      tauto
    · rw [if_neg hy]
      simp only [List.map_cons, List.mem_cons, ih x]
      tauto

/-- Full characterisation of one `expand_leaf` call, shared by several
results below. -/
theorem expand_char {S : Type} (g : Game S) (r : ℕ → ℕ) (t : Tree)
    (i : ℕ) (state : S) (k : ℕ) (hi : i < t.length) :
    ((getN t i).untried_actions = [] →
      expand_leaf g r t i state k = ((t, i, state), k))
    ∧ ((getN t i).untried_actions ≠ [] →
        (choice r k (getN t i).untried_actions ∈ (getN t i).untried_actions)
        ∧ (expand_leaf g r t i state k).2 = k + 1
        ∧ (expand_leaf g r t i state k).1.2.1 = t.length
        ∧ (expand_leaf g r t i state k).1.2.2
          = g.next_state state (choice r k (getN t i).untried_actions)
        ∧ (expand_leaf g r t i state k).1.1.length = t.length + 1
        ∧ getN (expand_leaf g r t i state k).1.1 t.length
          = { parent := some i,
              parent_action := some (choice r k (getN t i).untried_actions),
              child_nodes := [],
              untried_actions := g.legal_actions
                (g.next_state state (choice r k (getN t i).untried_actions)),
              wins := 0, visits := 0 }
        ∧ getN (expand_leaf g r t i state k).1.1 i
          = { getN t i with
              untried_actions := (getN t i).untried_actions.erase
                (choice r k (getN t i).untried_actions),
              child_nodes := dictUpdate (getN t i).child_nodes
                (choice r k (getN t i).untried_actions) t.length }
        ∧ (∀ j, j ≠ i → j ≠ t.length →
            getN (expand_leaf g r t i state k).1.1 j = getN t j)
        ∧ (choice r k (getN t i).untried_actions
              ∉ (getN t i).child_nodes.map Prod.fst →
            (getN (expand_leaf g r t i state k).1.1 i).child_nodes
              = (getN t i).child_nodes
                  ++ [(choice r k (getN t i).untried_actions, t.length)])) := by
  constructor
  · intro hu
    rw [expand_leaf, if_neg (by rw [hu]; exact fun hh => hh rfl)]
  · intro hu
    have hmem := choice_mem r k hu
    have hunf : expand_leaf g r t i state k
        = ((setN ((setN t i { getN t i with
              untried_actions := (getN t i).untried_actions.erase
                (choice r k (getN t i).untried_actions) }) ++
            [{ parent := some i,
               parent_action := some (choice r k (getN t i).untried_actions),
               child_nodes := [],
               untried_actions := g.legal_actions
                 (g.next_state state (choice r k (getN t i).untried_actions)),
               wins := 0, visits := 0 }]) i
            { getN ((setN t i { getN t i with
                  untried_actions := (getN t i).untried_actions.erase
                    (choice r k (getN t i).untried_actions) }) ++
                [{ parent := some i,
                   parent_action := some (choice r k (getN t i).untried_actions),
                   child_nodes := [],
                   untried_actions := g.legal_actions
                     (g.next_state state
                       (choice r k (getN t i).untried_actions)),
                   wins := 0, visits := 0 }]) i with
              child_nodes := dictUpdate
                (getN ((setN t i { getN t i with
                    untried_actions := (getN t i).untried_actions.erase
                      (choice r k (getN t i).untried_actions) }) ++
                  [{ parent := some i,
                     parent_action :=
                       some (choice r k (getN t i).untried_actions),
                     child_nodes := [],
                     untried_actions := g.legal_actions
                       (g.next_state state
                         (choice r k (getN t i).untried_actions)),
                     wins := 0, visits := 0 }]) i).child_nodes
                (choice r k (getN t i).untried_actions)
                (setN t i { getN t i with
                  untried_actions := (getN t i).untried_actions.erase
                    (choice r k (getN t i).untried_actions) }).length },
            (setN t i { getN t i with
              untried_actions := (getN t i).untried_actions.erase
                (choice r k (getN t i).untried_actions) }).length,
            g.next_state state (choice r k (getN t i).untried_actions)),
           k + 1) := by
      rw [expand_leaf, if_pos hu]
    have hlen1 : (setN t i { getN t i with
        untried_actions := (getN t i).untried_actions.erase
          (choice r k (getN t i).untried_actions) }).length = t.length :=
      length_setN ..
    have hg1i : getN (setN t i { getN t i with
        untried_actions := (getN t i).untried_actions.erase
          (choice r k (getN t i).untried_actions) }) i
        = { getN t i with
            untried_actions := (getN t i).untried_actions.erase
              (choice r k (getN t i).untried_actions) } := getN_setN_self _ hi
    have hg2i : getN ((setN t i { getN t i with
        untried_actions := (getN t i).untried_actions.erase
          (choice r k (getN t i).untried_actions) }) ++
        [{ parent := some i,
           parent_action := some (choice r k (getN t i).untried_actions),
           child_nodes := [],
           untried_actions := g.legal_actions
             (g.next_state state (choice r k (getN t i).untried_actions)),
           wins := 0, visits := 0 }]) i
        = { getN t i with
            untried_actions := (getN t i).untried_actions.erase
              (choice r k (getN t i).untried_actions) } := by
      rw [getN_append_lt _ (by rw [hlen1]; exact hi), hg1i]
    refine ⟨hmem, by rw [hunf], by rw [hunf, hlen1], by rw [hunf], ?_, ?_, ?_,
      ?_, ?_⟩
    · rw [hunf]
      simp only [length_setN, List.length_append, List.length_set,
        List.length_singleton]
    · rw [hunf]
      simp only [hlen1]
      rw [getN_setN_ne _ (by omega), getN_append_eq_len _ hlen1.symm]
    · rw [hunf]
      simp only [hlen1]
      rw [getN_setN_self _ (by
          rw [List.length_append, length_setN, List.length_singleton]
          omega),
        hg2i]
    · intro j hji hjl
      rw [hunf]
      simp only [hlen1]
      by_cases hjlt : j < t.length
      · rw [getN_setN_ne _ (fun hh => hji hh.symm),
          getN_append_lt _ (by rw [hlen1]; exact hjlt),
          getN_setN_ne _ (fun hh => hji hh.symm)]
      · rw [getN_setN_ne _ (fun hh => hji hh.symm), getN_oob, getN_oob]
        · exact Nat.le_of_not_lt hjlt
        · rw [List.length_append, length_setN, List.length_singleton]
          omega
    · intro hfresh
      rw [hunf]
      simp only [hlen1]
      rw [getN_setN_self _ (by
          rw [List.length_append, length_setN, List.length_singleton]
          omega),
        hg2i]
      exact dictUpdate_fresh _ hfresh

/-- C5: if the node has at least one untried action, `expand_leaf` picks the
random-stream element of `untried_actions` (uniform sampling by stream
index), removes exactly it from the node's `untried_actions`, advances the
state with `next_state`, appends a fresh child node keyed by that action
whose own `untried_actions` is the freshly computed legal-action list of the
advanced state and whose statistics start at zero, and returns the child
with the advanced state; every other node, and every other field of the
parent, is unchanged.  If the node has no untried action, node, state, tree
and stream are returned unchanged. -/
theorem c5_expand_leaf_spec {S : Type} (g : Game S) (r : ℕ → ℕ) (t : Tree)
    (i : ℕ) (state : S) (k : ℕ) (hi : i < t.length) :
    ((getN t i).untried_actions = [] →
      expand_leaf g r t i state k = ((t, i, state), k))
    ∧ ((getN t i).untried_actions ≠ [] →
        (choice r k (getN t i).untried_actions ∈ (getN t i).untried_actions)
        ∧ (expand_leaf g r t i state k).2 = k + 1
        ∧ (expand_leaf g r t i state k).1.2.1 = t.length
        ∧ (expand_leaf g r t i state k).1.2.2
          = g.next_state state (choice r k (getN t i).untried_actions)
        ∧ (expand_leaf g r t i state k).1.1.length = t.length + 1
        ∧ getN (expand_leaf g r t i state k).1.1 t.length
          = { parent := some i,
              parent_action := some (choice r k (getN t i).untried_actions),
              child_nodes := [],
              untried_actions := g.legal_actions
                (g.next_state state (choice r k (getN t i).untried_actions)),
              wins := 0, visits := 0 }
        ∧ getN (expand_leaf g r t i state k).1.1 i
          = { getN t i with
              untried_actions := (getN t i).untried_actions.erase
                (choice r k (getN t i).untried_actions),
              child_nodes := dictUpdate (getN t i).child_nodes
                (choice r k (getN t i).untried_actions) t.length }
        ∧ (∀ j, j ≠ i → j ≠ t.length →
            getN (expand_leaf g r t i state k).1.1 j = getN t j)
        ∧ (choice r k (getN t i).untried_actions
              ∉ (getN t i).child_nodes.map Prod.fst →
            (getN (expand_leaf g r t i state k).1.1 i).child_nodes
              = (getN t i).child_nodes
                  ++ [(choice r k (getN t i).untried_actions, t.length)])) :=
  expand_char g r t i state k hi

/-- Witness for C5: expanding the root of `T5` (untried `[A1, A2]`) with the
all-zeros stream picks `A1` and creates the child at index 1 holding the
legal actions of the advanced state. -/
theorem c5_expand_leaf_spec_witness :
    0 < T5.length ∧ (getN T5 0).untried_actions ≠ []
    ∧ choice (fun _ => 0) 0 (getN T5 0).untried_actions
        ∈ (getN T5 0).untried_actions
    ∧ getN (expand_leaf G9 (fun _ => 0) T5 0 0 0).1.1 T5.length
      = { parent := some 0,
          parent_action := some (choice (fun _ => 0) 0
            (getN T5 0).untried_actions),
          child_nodes := [],
          untried_actions := G9.legal_actions (G9.next_state 0
            (choice (fun _ => 0) 0 (getN T5 0).untried_actions)),
          wins := 0, visits := 0 } :=
  ⟨by decide, by decide,
   ((c5_expand_leaf_spec G9 (fun _ => 0) T5 0 0 0 (by decide)).2 (by decide)).1,
   ((c5_expand_leaf_spec G9 (fun _ => 0) T5 0 0 0 (by decide)).2
     (by decide)).2.2.2.2.2.1⟩

/-- Skipped elements of a guarded fold can be filtered away up front. -/
theorem foldl_skip_visits (t : Tree)
    (f : ℚ × Option (Option Act) → Act × ℕ → ℚ × Option (Option Act)) :
    ∀ (l : List (Act × ℕ)) (acc : ℚ × Option (Option Act)),
      l.foldl (fun acc p => if (getN t p.2).visits ≠ 0 then f acc p else acc)
          acc
        = (l.filter (fun p => decide ((getN t p.2).visits ≠ 0))).foldl f acc := by
  intro l
  induction l with
  | nil => intro acc; rfl
  | cons y ys ih =>
    intro acc
    rw [List.foldl_cons, List.filter_cons]
    by_cases hy : (getN t y.2).visits ≠ 0
    · rw [if_pos hy, if_pos (by simpa using hy), List.foldl_cons, ih]
    · rw [if_neg hy, if_neg (by simpa using hy), ih]

/-- The overwrite-on-`>=` fold keeps the last maximum: folding from an
accumulator `(w, a)` returns the last maximum of the list when its rate
reaches `w`, and the untouched accumulator otherwise. -/
theorem foldl_ge_lastMax (rate : Act × ℕ → ℚ) (pa : Act × ℕ → Option Act) :
    ∀ (l : List (Act × ℕ)) (w : ℚ) (a : Option (Option Act)),
      l.foldl (fun acc p =>
          if rate p ≥ acc.1 then (rate p, some (pa p)) else acc) (w, a)
        = match lastMax rate l with
          | none => (w, a)
          | some b => if rate b ≥ w then (rate b, some (pa b)) else (w, a) := by
  intro l
  induction l with
  | nil => intro w a; rfl
  | cons y ys ih =>
    intro w a
    rw [List.foldl_cons, lastMax]
    cases hys : lastMax rate ys with
    | none =>
      dsimp only
      by_cases hw : rate y ≥ w
      · rw [if_pos hw, ih, hys]
      · rw [if_neg hw, ih, hys]
    | some b =>
      dsimp only
      by_cases hyb : rate y > rate b
      · rw [if_pos hyb]
        by_cases hw : rate y ≥ w
        · rw [if_pos hw, ih, hys]
          dsimp only
          rw [if_neg (not_le.mpr hyb)]
        · rw [if_neg hw, ih, hys]
          dsimp only
          rw [if_neg (not_le.mpr (lt_trans hyb (not_le.mp hw)))]
      · rw [if_neg hyb]
        have hby : rate y ≤ rate b := not_lt.mp hyb
        by_cases hw : rate y ≥ w
        · rw [if_pos hw, ih, hys]
          dsimp only
          rw [if_pos hby]
          rw [if_pos (le_trans hw hby)]
        · rw [if_neg hw, ih, hys]

/-- C6 counterexample: on `T6` the root has a visited child (rate 0, action
`A1`) followed by a zero-visit child (action `A2`).  The claimed rule —
zero-visit children treated as rate 0, with a later rate greater than or
equal to the current best overwriting — would select `A2`; the code skips
the zero-visit child and returns `A1`. -/
theorem c6_counterexample_zero_visit_skipped :
    get_best_action T6 0 = .ok (some A1)
    ∧ getBestActionClaim T6 0 = some (some A2)
    ∧ (some A1 : Option Act) ≠ some A2 :=
  ⟨rfl, rfl, by decide⟩

/-- Shared refinement: `get_best_action` equals the skip-unvisited,
last-argmax extraction rule on every tree. -/
theorem get_best_action_eq_amended (t : Tree) (rootIdx : ℕ) :
    get_best_action t rootIdx = getBestActionAmended t rootIdx := by
  rw [get_best_action, getBestActionAmended]
  by_cases hc : (getN t rootIdx).child_nodes = []
  · rw [if_neg (fun hh => hh hc), if_pos hc]
  · rw [if_pos hc, if_neg hc]
    rw [foldl_skip_visits t
      (fun acc p =>
        if ((getN t p.2).wins : ℚ) / ((getN t p.2).visits : ℚ) ≥ acc.1 then
          (((getN t p.2).wins : ℚ) / ((getN t p.2).visits : ℚ),
            some (getN t p.2).parent_action)
        else acc)]
    rw [foldl_ge_lastMax
      (fun p => ((getN t p.2).wins : ℚ) / ((getN t p.2).visits : ℚ))
      (fun p => (getN t p.2).parent_action)]
    cases hsel : lastMax
        (fun p => ((getN t p.2).wins : ℚ) / ((getN t p.2).visits : ℚ))
        ((getN t rootIdx).child_nodes.filter
          (fun p => decide ((getN t p.2).visits ≠ 0))) with
    | none => rfl
    | some sel =>
      dsimp only
      rw [if_pos (div_nonneg (Nat.cast_nonneg _) (Nat.cast_nonneg _))]

/-- C6 amended: `get_best_action` implements the amended rule — zero-visit
children are skipped outright (never selectable), among visited children the
last one attaining the maximum exact win rate is selected, a root whose
children are all unvisited makes the function fail (Python's unbound
`action`), and a childless root falls back to its own `parent_action`. -/
theorem c6_amended_get_best_action (t : Tree) (rootIdx : ℕ) :
    get_best_action t rootIdx = getBestActionAmended t rootIdx :=
  get_best_action_eq_amended t rootIdx

/-- Unrolling one candidate iteration of the rollout's per-ply loop. -/
theorem plyRun_succ {S : Type} (g : Game S) (idb opb : ℕ) (rs : S)
    (r : ℕ → ℕ) (k m : ℕ) :
    plyRun g idb opb rs r k (m + 1)
      = plyStep g idb opb rs r (plyRun g idb opb rs r k m) := by
  rw [plyRun, plyRun, List.range_succ, List.foldl_append, List.foldl_cons,
    List.foldl_nil]

/-- Field-level characterisation of one candidate step: the accumulated
score always advances by the sampled move's delta, the stream position by
one, `rollout_move` is always the sampled move, and the best-move fields
change exactly when the accumulated score drops strictly below the current
threshold. -/
theorem plyStep_char {S : Type} (g : Game S) (idb opb : ℕ) (rs : S)
    (r : ℕ → ℕ) (st : PlyState) :
    (plyStep g idb opb rs r st).pp
      = st.pp + priorityDelta g idb opb
          (g.next_state rs (choice r st.k (g.legal_actions rs)))
          (choice r st.k (g.legal_actions rs))
    ∧ (plyStep g idb opb rs r st).k = st.k + 1
    ∧ (plyStep g idb opb rs r st).rollout_move
      = choice r st.k (g.legal_actions rs)
    ∧ (st.keep > st.pp + priorityDelta g idb opb
          (g.next_state rs (choice r st.k (g.legal_actions rs)))
          (choice r st.k (g.legal_actions rs)) →
        (plyStep g idb opb rs r st).best_check = true
        ∧ (plyStep g idb opb rs r st).best_move
          = choice r st.k (g.legal_actions rs)
        ∧ (plyStep g idb opb rs r st).keep
          = st.pp + priorityDelta g idb opb
              (g.next_state rs (choice r st.k (g.legal_actions rs)))
              (choice r st.k (g.legal_actions rs)))
    ∧ (¬ st.keep > st.pp + priorityDelta g idb opb
          (g.next_state rs (choice r st.k (g.legal_actions rs)))
          (choice r st.k (g.legal_actions rs)) →
        (plyStep g idb opb rs r st).best_check = st.best_check
        ∧ (plyStep g idb opb rs r st).best_move = st.best_move
        ∧ (plyStep g idb opb rs r st).keep = st.keep) := by
  by_cases h : st.keep > st.pp + priorityDelta g idb opb
      (g.next_state rs (choice r st.k (g.legal_actions rs)))
      (choice r st.k (g.legal_actions rs))
  · refine ⟨?_, ?_, ?_, fun _ => ⟨?_, ?_, ?_⟩, fun hh => absurd h hh⟩ <;>
      (simp only [plyStep]; rw [if_pos h])
  · refine ⟨?_, ?_, ?_, fun hh => absurd hh h, fun _ => ⟨?_, ?_, ?_⟩⟩ <;>
      (simp only [plyStep]; rw [if_neg h])

/-- The threshold `keep_point` never becomes positive. -/
theorem plyRun_keep_nonpos {S : Type} (g : Game S) (idb opb : ℕ) (rs : S)
    (r : ℕ → ℕ) (k : ℕ) : ∀ m, (plyRun g idb opb rs r k m).keep ≤ 0 := by
  intro m
  induction m with
  | zero => exact le_refl 0
  | succ m ih =>
    rw [plyRun_succ]
    obtain ⟨-, -, -, hrep, hkeep⟩ :=
      plyStep_char g idb opb rs r (plyRun g idb opb rs r k m)
    by_cases h : (plyRun g idb opb rs r k m).keep
        > (plyRun g idb opb rs r k m).pp + priorityDelta g idb opb
            (g.next_state rs
              (choice r (plyRun g idb opb rs r k m).k (g.legal_actions rs)))
            (choice r (plyRun g idb opb rs r k m).k (g.legal_actions rs))
    · rw [(hrep h).2.2]; omega
    · rw [(hkeep h).2.2]; exact ih

/-- The stream position after `m` candidates is `k + m`. -/
theorem plyRun_k {S : Type} (g : Game S) (idb opb : ℕ) (rs : S)
    (r : ℕ → ℕ) (k : ℕ) : ∀ m, (plyRun g idb opb rs r k m).k = k + m := by
  intro m
  induction m with
  | zero => rfl
  | succ m ih =>
    rw [plyRun_succ,
      (plyStep_char g idb opb rs r (plyRun g idb opb rs r k m)).2.1, ih]
    omega

/-- C10: in the heuristic rollout's 50-candidate per-ply loop, the threshold
`keep_point` starts at 0 and never becomes positive; the running best move
is replaced only at a step whose accumulated priority score falls strictly
below the current threshold (otherwise `best_move`, `best_check` and
`keep_point` are untouched); if `best_check` ends the loop true then some
step's accumulated score was strictly negative; if no candidate ever
triggered a replacement, the move actually played is the last (50th)
sampled move, `choice` at stream position `k + 49` over the legal moves of
the ply's state; and the outer rollout loop advances the state with exactly
the move `plyBest` selects. -/
theorem c10_rollout_ply_selection {S : Type} (g : Game S) (idb : ℕ) (rs : S)
    (r : ℕ → ℕ) (k : ℕ) :
    (plyRun g idb (opponent_bot idb) rs r k 0).keep = 0
    ∧ (∀ m, (plyRun g idb (opponent_bot idb) rs r k m).keep ≤ 0)
    ∧ (∀ m, ¬ ((plyRun g idb (opponent_bot idb) rs r k (m + 1)).pp
          < (plyRun g idb (opponent_bot idb) rs r k m).keep) →
        (plyRun g idb (opponent_bot idb) rs r k (m + 1)).best_move
            = (plyRun g idb (opponent_bot idb) rs r k m).best_move
        ∧ (plyRun g idb (opponent_bot idb) rs r k (m + 1)).best_check
            = (plyRun g idb (opponent_bot idb) rs r k m).best_check
        ∧ (plyRun g idb (opponent_bot idb) rs r k (m + 1)).keep
            = (plyRun g idb (opponent_bot idb) rs r k m).keep)
    ∧ ((plyRun g idb (opponent_bot idb) rs r k 50).best_check = false →
        plyBest g idb (opponent_bot idb) rs r k
          = (choice r (k + 49) (g.legal_actions rs), k + 50))
    ∧ ((plyRun g idb (opponent_bot idb) rs r k 50).best_check = true →
        ∃ m, m < 50 ∧ (plyRun g idb (opponent_bot idb) rs r k (m + 1)).pp < 0)
    ∧ (g.is_ended rs = false → ∀ fuel,
        rolloutAux g idb r (fuel + 1) rs k
          = rolloutAux g idb r fuel
              (g.next_state rs (plyBest g idb (opponent_bot idb) rs r k).1)
              (plyBest g idb (opponent_bot idb) rs r k).2) := by
  have hstep := fun m =>
    plyStep_char g idb (opponent_bot idb) rs r
      (plyRun g idb (opponent_bot idb) rs r k m)
  refine ⟨rfl, plyRun_keep_nonpos g idb (opponent_bot idb) rs r k, ?_, ?_, ?_,
    ?_⟩
  · intro m hno
    obtain ⟨hpp, -, -, -, hkeep⟩ := hstep m
    rw [plyRun_succ] at hno ⊢
    rw [hpp] at hno
    have h := hkeep (fun hh => hno hh)
    exact ⟨h.2.1, h.1, h.2.2⟩
  · intro hbc
    have hk := plyRun_k g idb (opponent_bot idb) rs r k 50
    have h50 : (50 : ℕ) = 49 + 1 := rfl
    have hrm : (plyRun g idb (opponent_bot idb) rs r k 50).rollout_move
        = choice r (k + 49) (g.legal_actions rs) := by
      rw [h50, plyRun_succ, (hstep 49).2.2.1,
        plyRun_k g idb (opponent_bot idb) rs r k 49]
    simp only [plyBest, hbc, Bool.false_eq_true, if_false, hrm, hk]
  · intro hbc
    suffices h : ∀ m, (plyRun g idb (opponent_bot idb) rs r k m).best_check
        = true →
        ∃ j, j < m ∧ (plyRun g idb (opponent_bot idb) rs r k (j + 1)).pp < 0 by
      exact h 50 hbc
    intro m
    induction m with
    | zero => intro h; cases h
    | succ m ih =>
      intro h
      obtain ⟨hpp, -, -, hrep, hkeep⟩ := hstep m
      by_cases hc : (plyRun g idb (opponent_bot idb) rs r k m).keep
          > (plyRun g idb (opponent_bot idb) rs r k m).pp
            + priorityDelta g idb (opponent_bot idb)
              (g.next_state rs (choice r
                (plyRun g idb (opponent_bot idb) rs r k m).k
                (g.legal_actions rs)))
              (choice r (plyRun g idb (opponent_bot idb) rs r k m).k
                (g.legal_actions rs))
      · refine ⟨m, Nat.lt_succ_self m, ?_⟩
        rw [plyRun_succ, hpp]
        calc (plyRun g idb (opponent_bot idb) rs r k m).pp
              + priorityDelta g idb (opponent_bot idb)
                (g.next_state rs (choice r
                  (plyRun g idb (opponent_bot idb) rs r k m).k
                  (g.legal_actions rs)))
                (choice r (plyRun g idb (opponent_bot idb) rs r k m).k
                  (g.legal_actions rs))
            < (plyRun g idb (opponent_bot idb) rs r k m).keep := hc
          _ ≤ 0 := plyRun_keep_nonpos g idb (opponent_bot idb) rs r k m
      · rw [plyRun_succ, (hkeep hc).1] at h
        obtain ⟨j, hj, hjpp⟩ := ih h
        exact ⟨j, Nat.lt_succ_of_lt hj, hjpp⟩
  · intro hne fuel
    rw [rolloutAux, if_neg (by rw [hne]; exact Bool.false_ne_true)]

set_option maxRecDepth 8000 in
/-- Witness for C10 on `G10` with the all-zeros stream: the scores never go
negative (all boxes unowned), so `best_check` stays false, the move played
is the 50th sampled move, and the rollout loop advances by it. -/
theorem c10_rollout_ply_selection_witness :
    G10.is_ended 0 = false
    ∧ rolloutAux G10 1 (fun _ => 0) (G10.rank 0 + 1) 0 0
        = rolloutAux G10 1 (fun _ => 0) (G10.rank 0)
            (G10.next_state 0 (plyBest G10 1 (opponent_bot 1) 0 (fun _ => 0) 0).1)
            (plyBest G10 1 (opponent_bot 1) 0 (fun _ => 0) 0).2
    ∧ (plyRun G10 1 (opponent_bot 1) 0 (fun _ => 0) 0 50).best_check = false
    ∧ plyBest G10 1 (opponent_bot 1) 0 (fun _ => 0) 0
        = (choice (fun _ => 0) 49 (G10.legal_actions 0), 50) :=
  ⟨rfl,
   (c10_rollout_ply_selection G10 1 0 (fun _ => 0) 0).2.2.2.2.2 rfl (G10.rank 0),
   by decide,
   (c10_rollout_ply_selection G10 1 0 (fun _ => 0) 0).2.2.2.1 (by decide)⟩

/-! Support lemmas for the search-loop invariant. -/

theorem root_parent_none {t : Tree} (hwf : WF t) : (getN t 0).parent = none := by
  cases hp : (getN t 0).parent with
  | none => rfl
  | some p =>
    have := (hwf.2 0 hwf.1).2.1 p (by rw [hp]; rfl)
    omega

theorem stateAt_root {S : Type} (g : Game S) (s0 : S) {t : Tree}
    (hwf : WF t) : ∀ fuel, 0 < fuel → stateAt g s0 t fuel 0 = s0 := by
  intro fuel hf
  cases fuel with
  | zero => omega
  | succ fuel => rw [stateAt, root_parent_none hwf]

theorem stateAt_congr {S : Type} (g : Game S) (s0 : S) {t t' : Tree}
    (hd : Pdec t') (N : ℕ)
    (hf : ∀ j, j ≤ N → (getN t' j).parent = (getN t j).parent
      ∧ (getN t' j).parent_action = (getN t j).parent_action) :
    ∀ fuel i, i ≤ N → stateAt g s0 t' fuel i = stateAt g s0 t fuel i := by
  intro fuel
  induction fuel with
  | zero => intro i _; rfl
  | succ fuel ih =>
    intro i hi
    rw [stateAt, stateAt, (hf i hi).1]
    cases hp : (getN t i).parent with
    | none => rfl
    | some p =>
      have hpi : p < i := by
        refine hd i p ?_
        rw [(hf i hi).1, hp]; rfl
      dsimp only
      rw [ih p (by omega), (hf i hi).2]

theorem dictUpdate_entries {l : List (Act × ℕ)} {a : Act} {b : ℕ} :
    ∀ e ∈ dictUpdate l a b, e ∈ l ∨ e = (a, b) := by
  induction l with
  | nil =>
    intro e he
    rw [dictUpdate, List.mem_singleton] at he
    exact Or.inr he
  | cons x xs ih =>
    intro e he
    rw [dictUpdate] at he
    by_cases hx : x.1 = a
    · rw [if_pos hx, List.mem_cons] at he
      rcases he with he | he
      · exact Or.inr he
      · exact Or.inl (List.mem_cons_of_mem x he)
    · rw [if_neg hx, List.mem_cons] at he
      rcases he with he | he
      · exact Or.inl (by rw [he]; exact List.mem_cons_self ..)
      · rcases ih e he with h | h
        · exact Or.inl (List.mem_cons_of_mem x h)
        · exact Or.inr h

theorem traverseAux_in_bounds {K : Type} [LinearOrderedField K]
    (sqrtK logK : K → K) {S : Type} (g : Game S) {t : Tree} (hwf : WF t) :
    ∀ fuel i state flag, i < t.length →
      (traverseAux sqrtK logK g t fuel i state flag).1 < t.length := by
  intro fuel
  induction fuel with
  | zero => intro i state flag hi; exact hi
  | succ fuel ih =>
    intro i state flag hi
    simp only [traverseAux]
    by_cases hu : (getN t i).untried_actions = []
    · rw [if_pos hu]
      cases hs : (getN t i).child_nodes.map
          (fun p => (p.2, ucb sqrtK logK t p.2 flag)) with
      | nil => exact hi
      | cons c cs =>
        obtain ⟨e, he, hbe⟩ := scores_mem_children sqrtK logK t flag i hs
          (firstMax_spec cs c).1
        obtain ⟨-, helen, -, -⟩ := (hwf.2 i hi).2.2 e he
        exact ih (firstMax c cs).1 _ flag (by rw [hbe]; exact helen)
    · rw [if_neg hu]
      exact hi

theorem lastMax_isSome (rate : Act × ℕ → ℚ) :
    ∀ l : List (Act × ℕ), l ≠ [] → ∃ b, lastMax rate l = some b := by
  intro l hl
  cases l with
  | nil => exact absurd rfl hl
  | cons x xs =>
    rw [lastMax]
    cases lastMax rate xs with
    | none => exact ⟨x, rfl⟩
    | some b => exact ⟨if rate x > rate b then x else b, rfl⟩

theorem is_win_ok {S : Type} (g : Game S) (state : S) (idb : ℕ)
    (h : g.is_ended state = true) : ∃ b, is_win g state idb = .ok b := by
  have := g.points_terminal state h
  rw [is_win]
  cases hp : g.points_values state with
  | none => rw [hp] at this; cases this
  | some pv => exact ⟨_, rfl⟩

theorem plyBest_mem {S : Type} (g : Game S) (idb opb : ℕ) (rs : S)
    (r : ℕ → ℕ) (k : ℕ) (hl : g.legal_actions rs ≠ []) :
    (plyBest g idb opb rs r k).1 ∈ g.legal_actions rs := by
  suffices h : ∀ m, ((plyRun g idb opb rs r k m).best_check = true →
        (plyRun g idb opb rs r k m).best_move ∈ g.legal_actions rs)
      ∧ (1 ≤ m → (plyRun g idb opb rs r k m).rollout_move
          ∈ g.legal_actions rs) by
    rw [plyBest]
    by_cases hbc : (plyRun g idb opb rs r k 50).best_check = true
    · simp only [hbc, if_true]
      exact (h 50).1 hbc
    · simp only [Bool.not_eq_true] at hbc
      simp only [hbc, Bool.false_eq_true, if_false]
      exact (h 50).2 (by omega)
  intro m
  induction m with
  | zero => exact ⟨(fun h => by cases h), (fun h => by omega)⟩
  | succ m ih =>
    obtain ⟨hpp, hk, hrm, hrep, hkeep⟩ :=
      plyStep_char g idb opb rs r (plyRun g idb opb rs r k m)
    constructor
    · intro hbc
      rw [plyRun_succ]
      by_cases hc : (plyRun g idb opb rs r k m).keep
          > (plyRun g idb opb rs r k m).pp + priorityDelta g idb opb
              (g.next_state rs (choice r (plyRun g idb opb rs r k m).k
                (g.legal_actions rs)))
              (choice r (plyRun g idb opb rs r k m).k (g.legal_actions rs))
      · rw [(hrep hc).2.1]
        exact choice_mem r _ hl
      · rw [(hkeep hc).2.1]
        refine ih.1 ?_
        rw [plyRun_succ, (hkeep hc).1] at hbc
        exact hbc
    · intro _
      rw [plyRun_succ, hrm]
      exact choice_mem r _ hl

theorem rolloutAux_ended {S : Type} (g : Game S) (idb : ℕ) (r : ℕ → ℕ) :
    ∀ fuel state k, g.rank state < fuel →
      g.is_ended (rolloutAux g idb r fuel state k).1 = true := by
  intro fuel
  induction fuel with
  | zero => intro state k h; omega
  | succ fuel ih =>
    intro state k h
    rw [rolloutAux]
    by_cases he : g.is_ended state = true
    · rw [if_pos he]; exact he
    · rw [if_neg he]
      simp only [Bool.not_eq_true] at he
      have hl : g.legal_actions state ≠ [] := g.legal_nonempty state he
      have hrank := g.rank_lt state
        (plyBest g idb (opponent_bot idb) state r k).1 he
        (plyBest_mem g idb (opponent_bot idb) state r k hl)
      exact ih _ _ (by omega)

theorem rollout_ended {S : Type} (g : Game S) (state : S) (idb : ℕ)
    (r : ℕ → ℕ) (k : ℕ) :
    g.is_ended (rollout g state idb r k).1 = true :=
  rolloutAux_ended g idb r (g.rank state + 1) state k (Nat.lt_succ_self _)

/-- Action extraction succeeds whenever every child of the root has been
visited at least once (or the root has no children at all). -/
theorem get_best_action_total (t : Tree) (rootIdx : ℕ)
    (h : ∀ c ∈ (getN t rootIdx).child_nodes, (getN t c.2).visits ≠ 0) :
    ∃ a, get_best_action t rootIdx = .ok a := by
  rw [get_best_action_eq_amended, getBestActionAmended]
  by_cases hc : (getN t rootIdx).child_nodes = []
  · rw [if_pos hc]
    exact ⟨_, rfl⟩
  · rw [if_neg hc]
    have hfe : (getN t rootIdx).child_nodes.filter
        (fun p => decide ((getN t p.2).visits ≠ 0))
        = (getN t rootIdx).child_nodes := by
      rw [List.filter_eq_self]
      intro c hcm
      simpa using h c hcm
    rw [hfe]
    obtain ⟨b, hb⟩ := lastMax_isSome
      (fun p => ((getN t p.2).wins : ℚ) / ((getN t p.2).visits : ℚ))
      (getN t rootIdx).child_nodes hc
    rw [hb]
    exact ⟨_, rfl⟩

theorem chain_self_mem (t : Tree) (i : ℕ) {fuel : ℕ} (hf : 0 < fuel) :
    i ∈ chain t fuel (some i) := by
  cases fuel with
  | zero => omega
  | succ fuel => rw [chain]; exact List.mem_cons_self ..

theorem chain_zero_mem {t : Tree} (hwf : WF t) {i : ℕ} (hi : i < t.length)
    {fuel : ℕ} (hf : i < fuel) : 0 ∈ chain t fuel (some i) :=
  List.mem_of_mem_getLast?
    (by rw [chain_getLast_zero hwf fuel i hi hf]; rfl)

/-- Backpropagation leaves every structural field of every node unchanged
and only (weakly) increases visit counts. -/
theorem backprop_fields {t : Tree} (hd : Pdec t) {i : ℕ} (hi : i < t.length)
    (won : Bool) (j : ℕ) :
    (getN (backpropagate t t.length (some i) won) j).parent
        = (getN t j).parent
    ∧ (getN (backpropagate t t.length (some i) won) j).parent_action
        = (getN t j).parent_action
    ∧ (getN (backpropagate t t.length (some i) won) j).child_nodes
        = (getN t j).child_nodes
    ∧ (getN (backpropagate t t.length (some i) won) j).untried_actions
        = (getN t j).untried_actions
    ∧ (getN t j).visits ≤ (getN (backpropagate t t.length (some i) won) j).visits := by
  obtain ⟨-, hmem, hnmem⟩ := backprop_walk won t.length t i hd hi hi
  by_cases hj : j ∈ chain t t.length (some i)
  · rw [hmem j hj]
    exact ⟨rfl, rfl, rfl, rfl, Nat.le_succ _⟩
  · rw [hnmem j hj]
    exact ⟨rfl, rfl, rfl, rfl, le_refl _⟩

/-- Well-formedness transfers along a map preserving length and the
structural fields of every node. -/
theorem WF_transfer {t t' : Tree} (hlen : t'.length = t.length)
    (hf : ∀ j, (getN t' j).parent = (getN t j).parent
      ∧ (getN t' j).parent_action = (getN t j).parent_action
      ∧ (getN t' j).child_nodes = (getN t j).child_nodes)
    (hwf : WF t) : WF t' := by
  refine ⟨by rw [hlen]; exact hwf.1, ?_⟩
  intro i hi
  rw [hlen] at hi
  obtain ⟨h1, h2, h3⟩ := hwf.2 i hi
  refine ⟨?_, ?_, ?_⟩
  · rw [(hf i).1]; exact h1
  · rw [(hf i).1]; exact h2
  · rw [(hf i).2.2]
    intro c hc
    obtain ⟨hc1, hc2, hc3, hc4⟩ := h3 c hc
    exact ⟨hc1, by rw [hlen]; exact hc2, by rw [(hf c.2).1]; exact hc3,
      by rw [(hf c.2).2.1]; exact hc4⟩

/-- The partition invariant transfers along a map preserving length and all
four structural fields of every node. -/
theorem Partition_transfer {S : Type} (g : Game S) (s0 : S) {t t' : Tree}
    (hlen : t'.length = t.length)
    (hf : ∀ j, (getN t' j).parent = (getN t j).parent
      ∧ (getN t' j).parent_action = (getN t j).parent_action
      ∧ (getN t' j).child_nodes = (getN t j).child_nodes
      ∧ (getN t' j).untried_actions = (getN t j).untried_actions)
    (hd : Pdec t) (hp : Partition g s0 t) : Partition g s0 t' := by
  intro i hi
  rw [hlen] at hi
  obtain ⟨hn, hdisj, hun⟩ := hp i hi
  have hPd' : Pdec t' := fun j p hjp => hd j p (by rw [← (hf j).1]; exact hjp)
  have hst : stateAt g s0 t' t'.length i = stateAt g s0 t t.length i := by
    rw [hlen]
    exact stateAt_congr g s0 hPd' i
      (fun j _ => ⟨(hf j).1, (hf j).2.1⟩) t.length i (le_refl i)
  have hkeys : keysN t' i = keysN t i := by
    rw [keysN, keysN, (hf i).2.2.1]
  refine ⟨?_, ?_, ?_⟩
  · rw [(hf i).2.2.2]; exact hn
  · rw [hkeys, (hf i).2.2.2]; exact hdisj
  · intro a
    rw [hkeys, (hf i).2.2.2, hst]
    exact hun a

/-- Expansion preserves the search-tree invariants: the grown tree is
well-formed, still satisfies the partition invariant, has exactly one more
node (with zero statistics, placed at the old length), and leaves the
statistics of every old node unchanged. -/
theorem expand_inv {S : Type} (g : Game S) (s0 : S) (r : ℕ → ℕ) {t : Tree}
    (hwf : WF t) (hpart : Partition g s0 t)
    {i : ℕ} (hi : i < t.length) (hu : (getN t i).untried_actions ≠ [])
    {state : S} (hstate : state = stateAt g s0 t t.length i) (k : ℕ) :
    WF (expand_leaf g r t i state k).1.1
    ∧ Partition g s0 (expand_leaf g r t i state k).1.1
    ∧ (expand_leaf g r t i state k).1.1.length = t.length + 1
    ∧ (∀ j, j < t.length →
        (getN (expand_leaf g r t i state k).1.1 j).wins = (getN t j).wins
        ∧ (getN (expand_leaf g r t i state k).1.1 j).visits
          = (getN t j).visits)
    ∧ (getN (expand_leaf g r t i state k).1.1 t.length).visits = 0 := by
  obtain ⟨hmem, hk, hidx, hst1, hlen3, hnew, hold, hothers, -⟩ :=
    (expand_char g r t i state k hi).2 hu
  have hfields : ∀ j, j < t.length →
      (getN (expand_leaf g r t i state k).1.1 j).parent = (getN t j).parent
      ∧ (getN (expand_leaf g r t i state k).1.1 j).parent_action
        = (getN t j).parent_action
      ∧ (getN (expand_leaf g r t i state k).1.1 j).wins = (getN t j).wins
      ∧ (getN (expand_leaf g r t i state k).1.1 j).visits
        = (getN t j).visits := by
    intro j hj
    by_cases hji : j = i
    · subst hji
      rw [hold]
      exact ⟨rfl, rfl, rfl, rfl⟩
    · rw [hothers j hji (by omega)]
      exact ⟨rfl, rfl, rfl, rfl⟩
  have hPd := Pdec_of_WF hwf
  have hPd3 : Pdec (expand_leaf g r t i state k).1.1 := by
    intro j p hp
    by_cases hj : j < t.length
    · exact hPd j p (by rw [← (hfields j hj).1]; exact hp)
    · by_cases hjL : j = t.length
      · subst hjL
        rw [hnew] at hp
        cases hp
        exact hi
      · rw [getN_oob (by rw [hlen3]; omega)] at hp
        cases hp
  have hwf3 : WF (expand_leaf g r t i state k).1.1 := by
    refine ⟨by rw [hlen3]; omega, ?_⟩
    intro j hj
    rw [hlen3] at hj
    by_cases hjL : j = t.length
    · subst hjL
      refine ⟨?_, ?_, ?_⟩
      · rw [hnew]; intro h; cases h
      · rw [hnew]; intro p hp; cases hp; exact hi
      · rw [hnew]; intro c hc; cases hc
    · have hjlt : j < t.length := by omega
      obtain ⟨hw1, hw2, hw3⟩ := hwf.2 j hjlt
      refine ⟨?_, ?_, ?_⟩
      · rw [(hfields j hjlt).1]; exact hw1
      · rw [(hfields j hjlt).1]; exact hw2
      · by_cases hji : j = i
        · subst hji
          rw [hold]
          intro c hc
          rcases dictUpdate_entries c hc with hc | hc
          · obtain ⟨hc1, hc2, hc3, hc4⟩ := hw3 c hc
            refine ⟨hc1, by omega, ?_, ?_⟩
            · rw [(hfields c.2 hc2).1]; exact hc3
            · rw [(hfields c.2 hc2).2.1]; exact hc4
          · subst hc
            exact ⟨hi, by omega, by rw [hnew], by rw [hnew]⟩
        · rw [hothers j hji hjL]
          intro c hc
          obtain ⟨hc1, hc2, hc3, hc4⟩ := hw3 c hc
          refine ⟨hc1, by omega, ?_, ?_⟩
          · rw [(hfields c.2 hc2).1]; exact hc3
          · rw [(hfields c.2 hc2).2.1]; exact hc4
  have hstOld : ∀ j, j < t.length →
      stateAt g s0 (expand_leaf g r t i state k).1.1
          (expand_leaf g r t i state k).1.1.length j
        = stateAt g s0 t t.length j := by
    intro j hj
    have h1 : stateAt g s0 (expand_leaf g r t i state k).1.1
        (expand_leaf g r t i state k).1.1.length j
        = stateAt g s0 t (expand_leaf g r t i state k).1.1.length j := by
      refine stateAt_congr g s0 hPd3 (t.length - 1)
        (fun j2 hj2 => ⟨(hfields j2 (by omega)).1, (hfields j2 (by omega)).2.1⟩)
        _ j (by omega)
    rw [h1, hlen3]
    exact stateAt_fuel_stable g s0 hPd (t.length + 1) t.length j (by omega) hj
  have hstI : stateAt g s0 (expand_leaf g r t i state k).1.1
      (expand_leaf g r t i state k).1.1.length i = state := by
    rw [hstOld i hi, hstate]
  have hstNew : stateAt g s0 (expand_leaf g r t i state k).1.1
      (expand_leaf g r t i state k).1.1.length t.length
      = g.next_state state (choice r k (getN t i).untried_actions) := by
    rw [hlen3, stateAt, hnew]
    dsimp only
    have h1 : stateAt g s0 (expand_leaf g r t i state k).1.1 t.length i
        = stateAt g s0 t t.length i := by
      refine stateAt_congr g s0 hPd3 (t.length - 1)
        (fun j2 hj2 => ⟨(hfields j2 (by omega)).1, (hfields j2 (by omega)).2.1⟩)
        _ i (by omega)
    rw [h1, ← hstate]
    rfl
  have hpart3 : Partition g s0 (expand_leaf g r t i state k).1.1 := by
    intro j hj
    rw [hlen3] at hj
    by_cases hjL : j = t.length
    · subst hjL
      rw [hnew, hstNew]
      refine ⟨g.legal_nodup _, ?_, ?_⟩
      · intro a ha
        rw [keysN, hnew] at ha
        cases ha
      · intro a
        rw [keysN, hnew]
        simp only [List.map_nil, List.not_mem_nil, false_or]
    · have hjlt : j < t.length := by omega
      obtain ⟨hn, hdisj, hun⟩ := hpart j hjlt
      by_cases hji : j = i
      · subst hji
        refine ⟨?_, ?_, ?_⟩
        · rw [hold]
          exact hn.erase _
        · intro x hx
          rw [keysN, hold] at hx
          rw [hold]
          rcases (dictUpdate_keys (getN t j).child_nodes
              (choice r k (getN t j).untried_actions) t.length x).mp hx with
            hxa | hxk
          · subst hxa
            intro hmem2
            exact ((List.Nodup.mem_erase_iff hn).mp hmem2).1 rfl
          · intro hmem2
            exact hdisj x hxk (List.mem_of_mem_erase hmem2)
        · intro x
          rw [keysN, hold, hstOld j hjlt]
          constructor
          · rintro (hx | hx)
            · rcases (dictUpdate_keys (getN t j).child_nodes
                  (choice r k (getN t j).untried_actions) t.length x).mp hx with
                hxa | hxk
              · subst hxa
                exact (hun _).mp (Or.inr hmem)
              · exact (hun x).mp (Or.inl hxk)
            · exact (hun x).mp (Or.inr (List.mem_of_mem_erase hx))
          · intro hx
            rcases (hun x).mpr hx with hxk | hxu
            · exact Or.inl ((dictUpdate_keys (getN t j).child_nodes
                (choice r k (getN t j).untried_actions) t.length x).mpr
                  (Or.inr hxk))
            · by_cases hxa : x = choice r k (getN t j).untried_actions
              · exact Or.inl ((dictUpdate_keys (getN t j).child_nodes
                  (choice r k (getN t j).untried_actions) t.length x).mpr
                    (Or.inl hxa))
              · exact Or.inr ((List.Nodup.mem_erase_iff hn).mpr ⟨hxa, hxu⟩)
      · have hkeys : keysN (expand_leaf g r t i state k).1.1 j = keysN t j := by
          rw [keysN, keysN, hothers j hji hjL]
        refine ⟨?_, ?_, ?_⟩
        · rw [hothers j hji hjL]; exact hn
        · rw [hkeys, hothers j hji hjL]; exact hdisj
        · intro a
          rw [hkeys, hothers j hji hjL, hstOld j hjlt]
          exact hun a
  refine ⟨hwf3, hpart3, hlen3, fun j hj => (hfields j hj).2.2, by rw [hnew]⟩

/-- One search iteration succeeds and preserves the tree invariants, adds
exactly one visit to the root, never shrinks the tree, and leaves a
childless fully-tried root untouched apart from its statistics. -/
theorem searchStep_inv {K : Type} [LinearOrderedField K] (sqrtK logK : K → K)
    {S : Type} (g : Game S) (s0 : S) (bot : ℕ) (r : ℕ → ℕ) (t : Tree)
    (k : ℕ) (hwf : WF t) (hvp : VisitsPos t) (hpart : Partition g s0 t) :
    ∃ t' k', searchStep sqrtK logK g bot s0 r t k = .ok (t', k')
      ∧ WF t' ∧ VisitsPos t' ∧ Partition g s0 t'
      ∧ t.length ≤ t'.length
      ∧ (getN t' 0).visits = (getN t 0).visits + 1
      ∧ ((getN t 0).untried_actions = [] → (getN t 0).child_nodes = [] →
          t'.length = t.length
          ∧ (getN t' 0).untried_actions = []
          ∧ (getN t' 0).child_nodes = []
          ∧ (getN t' 0).parent_action = (getN t 0).parent_action) := by
  have hPd := Pdec_of_WF hwf
  have hts1 : (traverse_nodes sqrtK logK g t 0 s0 bot).1 < t.length := by
    rw [traverse_nodes]
    exact traverseAux_in_bounds sqrtK logK g hwf (t.length + 1) 0 s0 _ hwf.1
  have hts2 : (traverse_nodes sqrtK logK g t 0 s0 bot).2
      = stateAt g s0 t t.length
          ((traverse_nodes sqrtK logK g t 0 s0 bot).1) := by
    rw [traverse_nodes]
    exact traverseAux_stateAt sqrtK logK g s0 hwf (t.length + 1) 0 s0 _ hwf.1
      (stateAt_root g s0 hwf t.length hwf.1).symm
  by_cases hu : (getN t
      (traverse_nodes sqrtK logK g t 0 s0 bot).1).untried_actions = []
  · -- no expansion: backpropagate from the traversal node
    have hexp := (expand_char g r t (traverse_nodes sqrtK logK g t 0 s0 bot).1
      (traverse_nodes sqrtK logK g t 0 s0 bot).2 k hts1).1 hu
    obtain ⟨won, hwin⟩ := is_win_ok g
      (rollout g (traverse_nodes sqrtK logK g t 0 s0 bot).2 bot r k).1 bot
      (rollout_ended g (traverse_nodes sqrtK logK g t 0 s0 bot).2 bot r k)
    have hss : searchStep sqrtK logK g bot s0 r t k
        = .ok (backpropagate t t.length
            (some (traverse_nodes sqrtK logK g t 0 s0 bot).1) won,
          (rollout g (traverse_nodes sqrtK logK g t 0 s0 bot).2 bot r k).2) := by
      simp only [searchStep]
      rw [hexp]
      dsimp only
      rw [hwin]
    obtain ⟨hblen, hbmem, hbnmem⟩ :=
      backprop_walk won t.length t
        (traverse_nodes sqrtK logK g t 0 s0 bot).1 hPd hts1 hts1
    have hbf := backprop_fields hPd hts1 won
    have hroot := hbmem 0 (chain_zero_mem hwf hts1 hts1)
    refine ⟨_, _, hss, ?_, ?_, ?_, ?_, ?_, ?_⟩
    · exact WF_transfer hblen (fun j => ⟨(hbf j).1, (hbf j).2.1, (hbf j).2.2.1⟩)
        hwf
    · intro j hj hj0
      rw [hblen] at hj
      exact le_trans (hvp j hj hj0) (hbf j).2.2.2.2
    · exact Partition_transfer g s0 hblen
        (fun j => ⟨(hbf j).1, (hbf j).2.1, (hbf j).2.2.1, (hbf j).2.2.2.1⟩)
        hPd hpart
    · rw [hblen]
    · rw [hroot]; rfl
    · intro h1 h2
      exact ⟨hblen, by rw [(hbf 0).2.2.2.1]; exact h1,
        by rw [(hbf 0).2.2.1]; exact h2, (hbf 0).2.1⟩
  · -- expansion: a fresh child is appended, then backpropagated through
    obtain ⟨hmem, hk, hidx, hst1, hlen3, hnew, hold, hothers, -⟩ :=
      (expand_char g r t (traverse_nodes sqrtK logK g t 0 s0 bot).1
        (traverse_nodes sqrtK logK g t 0 s0 bot).2 k hts1).2 hu
    obtain ⟨hwf3, hpart3, hlen3', hstats, hvnew⟩ :=
      expand_inv g s0 r hwf hpart hts1 hu hts2 k
    have hPd3 := Pdec_of_WF hwf3
    obtain ⟨won, hwin⟩ := is_win_ok g
      (rollout g (expand_leaf g r t (traverse_nodes sqrtK logK g t 0 s0 bot).1
          (traverse_nodes sqrtK logK g t 0 s0 bot).2 k).1.2.2 bot r
        (expand_leaf g r t (traverse_nodes sqrtK logK g t 0 s0 bot).1
          (traverse_nodes sqrtK logK g t 0 s0 bot).2 k).2).1 bot
      (rollout_ended g _ bot r _)
    have hLlt : t.length
        < (expand_leaf g r t (traverse_nodes sqrtK logK g t 0 s0 bot).1
            (traverse_nodes sqrtK logK g t 0 s0 bot).2 k).1.1.length := by
      rw [hlen3']; omega
    have hss : searchStep sqrtK logK g bot s0 r t k
        = .ok (backpropagate
            (expand_leaf g r t (traverse_nodes sqrtK logK g t 0 s0 bot).1
              (traverse_nodes sqrtK logK g t 0 s0 bot).2 k).1.1
            (expand_leaf g r t (traverse_nodes sqrtK logK g t 0 s0 bot).1
              (traverse_nodes sqrtK logK g t 0 s0 bot).2 k).1.1.length
            (some t.length) won,
          (rollout g
            (expand_leaf g r t (traverse_nodes sqrtK logK g t 0 s0 bot).1
              (traverse_nodes sqrtK logK g t 0 s0 bot).2 k).1.2.2 bot r
            (expand_leaf g r t (traverse_nodes sqrtK logK g t 0 s0 bot).1
              (traverse_nodes sqrtK logK g t 0 s0 bot).2 k).2).2) := by
      simp only [searchStep]
      rw [hwin, hidx]
    obtain ⟨hblen, hbmem, hbnmem⟩ :=
      backprop_walk won
        (expand_leaf g r t (traverse_nodes sqrtK logK g t 0 s0 bot).1
          (traverse_nodes sqrtK logK g t 0 s0 bot).2 k).1.1.length
        (expand_leaf g r t (traverse_nodes sqrtK logK g t 0 s0 bot).1
          (traverse_nodes sqrtK logK g t 0 s0 bot).2 k).1.1
        t.length hPd3 hLlt hLlt
    have hbf := backprop_fields hPd3 hLlt won
    have hroot := hbmem 0 (chain_zero_mem hwf3 hLlt hLlt)
    have hnewchain := hbmem t.length (chain_self_mem _ _ (by omega))
    refine ⟨_, _, hss, ?_, ?_, ?_, ?_, ?_, ?_⟩
    · exact WF_transfer hblen
        (fun j => ⟨(hbf j).1, (hbf j).2.1, (hbf j).2.2.1⟩) hwf3
    · intro j hj hj0
      rw [hblen, hlen3'] at hj
      by_cases hjL : j = t.length
      · subst hjL
        rw [hnewchain]
        rw [bump, hvnew]
      · have : 1 ≤ (getN (expand_leaf g r t
            (traverse_nodes sqrtK logK g t 0 s0 bot).1
            (traverse_nodes sqrtK logK g t 0 s0 bot).2 k).1.1 j).visits := by
          rw [(hstats j (by omega)).2]
          exact hvp j (by omega) hj0
        exact le_trans this (hbf j).2.2.2.2
    · exact Partition_transfer g s0 hblen
        (fun j => ⟨(hbf j).1, (hbf j).2.1, (hbf j).2.2.1, (hbf j).2.2.2.1⟩)
        hPd3 hpart3
    · rw [hblen, hlen3']; omega
    · rw [hroot, bump, (hstats 0 hwf.1).2]
    · intro h1 h2
      exfalso
      refine hu ?_
      have htv : traverse_nodes sqrtK logK g t 0 s0 bot = (0, s0) := by
        rw [traverse_nodes]
        simp only [traverseAux]
        rw [if_pos h1, h2]
        rfl
      rw [htv]
      exact h1

/-- The whole search loop succeeds, preserves the invariants, and adds
exactly one root visit per iteration; a childless fully-tried root passes
through unchanged apart from its statistics. -/
theorem searchLoop_inv {K : Type} [LinearOrderedField K] (sqrtK logK : K → K)
    {S : Type} (g : Game S) (s0 : S) (bot : ℕ) (r : ℕ → ℕ) :
    ∀ n t k, WF t → VisitsPos t → Partition g s0 t →
      ∃ t' k', searchLoop sqrtK logK g bot s0 r n t k = .ok (t', k')
        ∧ WF t' ∧ VisitsPos t' ∧ Partition g s0 t'
        ∧ (getN t' 0).visits = (getN t 0).visits + n
        ∧ ((getN t 0).untried_actions = [] → (getN t 0).child_nodes = [] →
            t'.length = t.length
            ∧ (getN t' 0).untried_actions = []
            ∧ (getN t' 0).child_nodes = []
            ∧ (getN t' 0).parent_action = (getN t 0).parent_action) := by
  intro n
  induction n with
  | zero =>
    intro t k hwf hvp hpart
    exact ⟨t, k, rfl, hwf, hvp, hpart, rfl, fun _ _ => ⟨rfl, by assumption,
      by assumption, rfl⟩⟩
  | succ n ih =>
    intro t k hwf hvp hpart
    obtain ⟨t1, k1, hs, hwf1, hvp1, hpart1, hlen1, hv1, hterm1⟩ :=
      searchStep_inv sqrtK logK g s0 bot r t k hwf hvp hpart
    obtain ⟨t', k', hl, hwf', hvp', hpart', hv', hterm'⟩ :=
      ih t1 k1 hwf1 hvp1 hpart1
    refine ⟨t', k', ?_, hwf', hvp', hpart', by rw [hv', hv1]; omega, ?_⟩
    · simp only [searchLoop]
      rw [hs]
      exact hl
    · intro h1 h2
      obtain ⟨ha, hb, hc, hd⟩ := hterm1 h1 h2
      obtain ⟨ha', hb', hc', hd'⟩ := hterm' hb hc
      exact ⟨by rw [ha', ha], hb', hc', by rw [hd', hd]⟩

/-- The one-node tree `think` starts from satisfies all the invariants. -/
theorem init_inv {S : Type} (g : Game S) (s0 : S) :
    WF [rootNode g s0] ∧ VisitsPos [rootNode g s0]
      ∧ Partition g s0 [rootNode g s0] := by
  have hroot : getN [rootNode g s0] 0 = rootNode g s0 := rfl
  refine ⟨⟨by simp, ?_⟩, ?_, ?_⟩
  · intro i hi
    have hi0 : i = 0 := by
      simp only [List.length_singleton] at hi
      omega
    subst hi0
    refine ⟨fun _ => rfl, ?_, ?_⟩
    · intro p hp
      rw [hroot] at hp
      cases hp
    · intro c hc
      rw [hroot] at hc
      cases hc
  · intro i hi hi0
    simp only [List.length_singleton] at hi
    omega
  · intro i hi
    have hi0 : i = 0 := by
      simp only [List.length_singleton] at hi
      omega
    subst hi0
    have hst : stateAt g s0 [rootNode g s0]
        (List.length [rootNode g s0]) 0 = s0 := by
      rw [List.length_singleton, stateAt, hroot]
      rfl
    refine ⟨?_, ?_, ?_⟩
    · rw [hroot]; exact g.legal_nodup s0
    · intro a ha
      rw [keysN, hroot] at ha
      cases ha
    · intro a
      rw [keysN, hroot, hst]
      simp only [rootNode, List.map_nil, List.not_mem_nil, false_or]

/-- C7: after `n` completed search iterations from the freshly built root,
the loop has succeeded and the root's `visits` counter equals exactly `n`
— every iteration's backpropagation reaches the root exactly once, because
the node handed to it is always connected to the root through its parent
chain (think's budget instantiates `n := num_nodes`). -/
theorem c7_root_visits_conservation {K : Type} [LinearOrderedField K]
    (sqrtK logK : K → K) {S : Type} (g : Game S) (s0 : S) (r : ℕ → ℕ)
    (n : ℕ) :
    ∃ t k, searchLoop sqrtK logK g (g.current_player s0) s0 r n
        [rootNode g s0] 0 = .ok (t, k)
      ∧ (getN t 0).visits = n := by
  obtain ⟨hwf, hvp, hpart⟩ := init_inv g s0
  obtain ⟨t, k, hl, -, -, -, hv, -⟩ :=
    searchLoop_inv sqrtK logK g s0 (g.current_player s0) r n
      [rootNode g s0] 0 hwf hvp hpart
  exact ⟨t, k, hl, by rw [hv]; exact Nat.zero_add n⟩

/-- C8: at every iteration boundary of the search, every node's expanded
keys and remaining untried actions are disjoint and together are exactly
the legal actions of the state that node represents (replayed from the
root); and one expansion shrinks `untried_actions` by exactly the action
under which the new child is keyed. -/
theorem c8_partition_invariant {K : Type} [LinearOrderedField K]
    (sqrtK logK : K → K) {S : Type} (g : Game S) (s0 : S) (r : ℕ → ℕ)
    (n : ℕ) :
    (∀ t k, searchLoop sqrtK logK g (g.current_player s0) s0 r n
        [rootNode g s0] 0 = .ok (t, k) →
      ∀ i, i < t.length →
        (∀ a ∈ keysN t i, a ∉ (getN t i).untried_actions)
        ∧ ∀ a, (a ∈ keysN t i ∨ a ∈ (getN t i).untried_actions)
            ↔ a ∈ g.legal_actions (stateAt g s0 t t.length i))
    ∧ ∀ (t2 : Tree) (i2 : ℕ) (s2 : S) (k2 : ℕ), i2 < t2.length →
        (getN t2 i2).untried_actions ≠ [] →
        (getN (expand_leaf g r t2 i2 s2 k2).1.1 i2).untried_actions
          = (getN t2 i2).untried_actions.erase
              (choice r k2 (getN t2 i2).untried_actions)
        ∧ (choice r k2 (getN t2 i2).untried_actions, t2.length)
            ∈ (getN (expand_leaf g r t2 i2 s2 k2).1.1 i2).child_nodes := by
  constructor
  · intro t k hl i hi
    obtain ⟨hwf, hvp, hpart⟩ := init_inv g s0
    obtain ⟨t', k', hl', -, -, hpart', -, -⟩ :=
      searchLoop_inv sqrtK logK g s0 (g.current_player s0) r n
        [rootNode g s0] 0 hwf hvp hpart
    rw [hl] at hl'
    simp only [Except.ok.injEq, Prod.mk.injEq] at hl'
    obtain ⟨h1, -⟩ := hl'
    subst h1
    exact ⟨(hpart' i hi).2.1, (hpart' i hi).2.2⟩
  · intro t2 i2 s2 k2 hi2 hu2
    obtain ⟨-, -, -, -, -, -, hold, -, -⟩ :=
      (expand_char g r t2 i2 s2 k2 hi2).2 hu2
    constructor
    · rw [hold]
    · rw [hold]
      exact dictUpdate_mem ..

/-- Witness for C8 on the terminal game `G1` after one iteration (the loop
leaves the root childless with its empty untried list, and the partition is
the empty one), plus one concrete expansion on `T5`. -/
theorem c8_partition_invariant_witness :
    searchLoop (K := ℚ) id id G1 (G1.current_player 0) 0 (fun _ => 0) 1
        [rootNode G1 0] 0 = .ok (T1r, 0)
    ∧ (∀ a, (a ∈ keysN T1r 0 ∨ a ∈ (getN T1r 0).untried_actions)
        ↔ a ∈ G1.legal_actions (stateAt G1 0 T1r T1r.length 0))
    ∧ (getN (expand_leaf G1 (fun _ => 0) T5 0 0 0).1.1 0).untried_actions
      = (getN T5 0).untried_actions.erase
          (choice (fun _ => 0) 0 (getN T5 0).untried_actions)
    ∧ (choice (fun _ => 0) 0 (getN T5 0).untried_actions, T5.length)
        ∈ (getN (expand_leaf G1 (fun _ => 0) T5 0 0 0).1.1 0).child_nodes := by
  have h := c8_partition_invariant (K := ℚ) id id G1 0 (fun _ => 0) 1
  have hs : searchLoop (K := ℚ) id id G1 (G1.current_player 0) 0 (fun _ => 0) 1
      [rootNode G1 0] 0 = .ok (T1r, 0) := rfl
  refine ⟨hs, fun a => (h.1 T1r 0 hs 0 (by decide)).2 a, ?_, ?_⟩
  · exact (h.2 T5 0 0 0 (by decide) (by decide)).1
  · exact (h.2 T5 0 0 0 (by decide) (by decide)).2

/-- C1: for every input game state, `think` runs its fixed iteration budget
(`num_nodes = 100`) and returns the engine's recommended action without
error; in particular, when the root state is already terminal (empty
legal-action set, so no expansion ever occurs), `think` returns `none`,
the root's own `parent_action`, through the no-children fallback of
`get_best_action`. -/
theorem c1_think_returns {K : Type} [LinearOrderedField K]
    (sqrtK logK : K → K) {S : Type} (g : Game S) (s0 : S) (r : ℕ → ℕ) :
    (∃ a, think sqrtK logK g s0 r = .ok a)
    ∧ num_nodes = 100
    ∧ (g.is_ended s0 = true → g.legal_actions s0 = [] →
        think sqrtK logK g s0 r = .ok none) := by
  obtain ⟨hwf, hvp, hpart⟩ := init_inv g s0
  obtain ⟨t', k', hl, hwf', hvp', hpart', hv', hterm'⟩ :=
    searchLoop_inv sqrtK logK g s0 (g.current_player s0) r num_nodes
      [rootNode g s0] 0 hwf hvp hpart
  refine ⟨?_, rfl, ?_⟩
  · have hall : ∀ c ∈ (getN t' 0).child_nodes,
        (getN t' c.2).visits ≠ 0 := by
      intro c hc
      obtain ⟨hc1, hc2, -, -⟩ := (hwf'.2 0 hwf'.1).2.2 c hc
      have := hvp' c.2 hc2 hc1
      omega
    obtain ⟨a, ha⟩ := get_best_action_total t' 0 hall
    refine ⟨a, ?_⟩
    simp only [think]
    rw [hl]
    exact ha
  · intro hend hleg
    have hru : (getN [rootNode g s0] 0).untried_actions = [] := by
      show (rootNode g s0).untried_actions = []
      rw [rootNode]
      exact hleg
    obtain ⟨hlen', hu', hc', hpa'⟩ := hterm' hru rfl
    simp only [think]
    rw [hl]
    dsimp only
    rw [get_best_action, if_neg (fun hh => hh hc'), hpa']
    rfl

/-- Witness for C1 on the terminal game `G1`: `think` returns `Except.ok
none` after its 100 budget iterations. -/
theorem c1_think_returns_witness :
    G1.is_ended 0 = true ∧ G1.legal_actions 0 = []
    ∧ think (K := ℚ) id id G1 0 (fun _ => 0) = .ok none :=
  ⟨rfl, rfl, (c1_think_returns (K := ℚ) id id G1 0 (fun _ => 0)).2.2 rfl rfl⟩

/-- The vanilla backpropagation stub mutates nothing: no visit or win count
ever changes, in contrast with C2's contract (which the modified engine
satisfies). -/
theorem vanilla_backpropagate_noop (t : Tree) (node : Option ℕ)
    (won : Bool) : MctsVanilla.backpropagate t node won = t := rfl

/-- The vanilla extraction stub returns no action for any tree. -/
theorem vanilla_get_best_action_none (t : Tree) (rootIdx : ℕ) :
    MctsVanilla.get_best_action t rootIdx = none := rfl

end MCTS
